import Mathlib

/-!
Verification of the Vennex tool (`src/Vennex.c`): a shallow embedding of its
data model and algorithms, with theorems checking the natural-language
specification against the code.

Conventions of the embedding:
* a k-mer key is a `List Nat` of its packed bytes (all keys of one run have
  length `kbyte`);
* a table entry is a key paired with its 16-bit occurrence count, modelled as
  a `Nat`;
* a `Kmer_Stream` is the finite list of its entries in stream order, and
  advancing the cursor is taking the tail;
* the machine loops become structural or fuel-indexed recursions (the fuel is
  the quantity the C loop strictly decreases, and fuel-irrelevance lemmas are
  proved below);
* `int64` histogram counters live in functions `Nat → Nat` / `Nat → Int`
  indexed by bin or by block offset.
-/

namespace Vennex

/-- One `(key, count)` entry of a k-mer table: the `kbyte` packed key bytes
followed by the `uint16` count (`COUNT_OF` in the source). -/
structure Entry where
  key : List Nat
  count : Nat
deriving Repr, DecidableEq

/-- The key comparator `mycmp` of `src/Vennex.c` (lines 33-39): walk the two
byte sequences in parallel and decide at the first differing byte, comparing
bytes as unsigned values; return 0 when the first `n` bytes agree.  The two
lists play the role of the two `uint8*` arguments limited to `n` bytes, so the
`n`-byte window is the common length of the lists.  The function is pure: it
only reads its arguments. -/
def mycmp : List Nat → List Nat → Int
  | a :: as, b :: bs => if a ≠ b then (if a < b then -1 else 1) else mycmp as bs
  | _, _ => 0

/-- Initial value of `HIST_LOW` set in `main` (line 175). -/
def HIST_LOW_default : Nat := 1

/-- Initial value of `HIST_HGH` set in `main` (line 176). -/
def HIST_HGH_default : Nat := 100

/-- The clamp target of the histogram update block: `HIST_LOW` for counts at
or below it, `HIST_HGH` for counts at or above it, the count itself
otherwise.  This mirrors the branch structure of lines 97-102 of the source. -/
def binOf (LOW HIGH c : Nat) : Nat :=
  if c ≤ LOW then LOW else if HIGH ≤ c then HIGH else c

/-- The histogram update block of the main compare loop of `Venn2`
(lines 97-102): `if (c <= HIST_LOW) h[HIST_LOW] += 1; else if (c >= HIST_HGH)
h[HIST_HGH] += 1; else h[c] += 1;`. -/
def histInc (LOW HIGH c : Nat) (h : Nat → Nat) : Nat → Nat :=
  if c ≤ LOW then fun b => if b = LOW then h LOW + 1 else h b
  else if HIGH ≤ c then fun b => if b = HIGH then h HIGH + 1 else h b
  else fun b => if b = c then h c + 1 else h b

/-- The histogram update block of the drain loop of `Venn2` (lines 108-113),
which textually repeats the block of lines 97-102. -/
def histIncDrain (LOW HIGH c : Nat) (h : Nat → Nat) : Nat → Nat :=
  if c ≤ LOW then fun b => if b = LOW then h LOW + 1 else h b
  else if HIGH ≤ c then fun b => if b = HIGH then h HIGH + 1 else h b
  else fun b => if b = c then h c + 1 else h b

/-! ## Histogram block allocation (`main`, lines 230-242)

The source allocates `hist = Malloc(sizeof(int64)*((HIST_HGH-HIST_LOW)+1))`
and then lays out the per-combination base pointers as `comb[0] = hist -
HIST_LOW` and `comb[i] = comb[i-1] + (HIST_HGH-HIST_LOW) + 1`.  We model
pointers into the block as offsets (in `int64` units) from `hist`. -/

/-- Number of `int64` counters actually allocated (and zeroed by `bzero`) for
the whole histogram bank: `(HIST_HGH-HIST_LOW)+1` (lines 234 and 241).  Note
the size does not involve `ncomb`. -/
def histWords (LOW HIGH : Nat) : Nat := (HIGH - LOW) + 1

/-- Offset (in `int64` units, relative to the `hist` base pointer) of the
base pointer `comb[i]` (lines 237-239). -/
def combOff (LOW HIGH : Nat) : Nat → Int
  | 0 => -(LOW : Int)
  | i + 1 => combOff LOW HIGH i + ((HIGH : Int) - (LOW : Int) + 1)

/-- Offset of bin `b` of the histogram with base pointer `comb[i]`: the cell
written by `comb[i][b] += 1`. -/
def binAddr (LOW HIGH : Nat) (i b : Nat) : Int := combOff LOW HIGH i + (b : Int)

/-- The block size the specification prescribes:
`(2^N − 1) * (HIGH − LOW + 1)` counters. -/
def specHistWords (nway LOW HIGH : Nat) : Nat := (2 ^ nway - 1) * ((HIGH - LOW) + 1)

/-! ## Parsing of the `-h` option (`main`, lines 185-211)

`parseH` receives the characters of `argv[i]+2` (the text after `-h`) and
returns `some (HIST_LOW, HIST_HGH)` when the option is accepted, `none` when
the program prints a message to stderr and calls `exit(1)` (either the
out-of-range error of lines 189-191, the invalid-range error of lines
197-198, or the syntax error of lines 209-210). -/

/-- Leading-whitespace skipping performed by `strtol`. -/
def skipWS : List Char → List Char
  | c :: cs => if c = ' ' ∨ c = '\t' ∨ c = '\n' ∨ c = '\r' then skipWS cs else c :: cs
  | [] => []

/-- Greedily read decimal digits, accumulating their value. -/
def readDigits : List Char → Nat → Nat × List Char
  | c :: cs, acc =>
      if c.isDigit then readDigits cs (acc * 10 + (c.toNat - 48)) else (acc, c :: cs)
  | [], acc => (acc, [])

/-- Model of `strtol(s, &end, 10)` as used by the option parser: skip
whitespace, accept an optional sign, then digits.  Returns `none` exactly when
no conversion is performed, i.e. when the C code would leave `end` at the
start of the string (the `eptr > argv[i]+2` / `fptr > eptr+1` tests fail). -/
def strtol (s : List Char) : Option (Int × List Char) :=
  let t := skipWS s
  match t with
  | '-' :: cs =>
      (match cs with
       | c :: _ => if c.isDigit then
             (match readDigits cs 0 with
              | (n, rest) => some (-(n : Int), rest))
           else none
       | [] => none)
  | '+' :: cs =>
      (match cs with
       | c :: _ => if c.isDigit then
             (match readDigits cs 0 with
              | (n, rest) => some ((n : Int), rest))
           else none
       | [] => none)
  | c :: _ =>
      if c.isDigit then
        (match readDigits t 0 with
         | (n, rest) => some ((n : Int), rest))
      else none
  | [] => none

/-- The `-h` option handler of `main` (lines 185-211): parse `HIST_LOW`; if a
number was read, reject values outside `[1, 0x7fff]`; then either a `:` and a
second number consuming the rest of the argument (rejecting `HIST_LOW >
HIST_HGH`), or end of argument, in which case the single number becomes
`HIST_HGH` and `HIST_LOW` defaults to 1.  Every other shape is the syntax
error of lines 209-210.  Returns the accepted `(HIST_LOW, HIST_HGH)` pair, or
`none` when the program exits with status 1. -/
def parseH (s : List Char) : Option (Int × Int) :=
  match strtol s with
  | none => none
  | some (lo, rest) =>
      if lo < 1 ∨ 0x7fff < lo then none
      else
        match rest with
        | c :: rest2 =>
            if c = ':' then
              match strtol rest2 with
              | some (hi, rest3) =>
                  if rest3 = [] then (if hi < lo then none else some (lo, hi)) else none
              | none => none
            else none
        | [] => some (1, lo)

/-! ## Output file naming (`main`, lines 293-316)

For each combination index `i` from 1 to `ncomb` the writer builds a name
from the uppercased/lowercased table names.  In the source the selector `b`
is initialised to 1 before the inner loop and never shifted, so the test
`b & i` is `1 & i` for every position `c`. -/

/-- The name-building inner loop of the writer (lines 297-306): for each
position `c` prepend a `_` separator (except at `c = 0`) and append the
uppercase name when `b & i` is nonzero, else the lowercase name, where `b`
stays 1 throughout (the source never updates `b`). -/
def buildLabel (upp low : List String) (nway i : Nat) : String :=
  let b := 1
  (List.range nway).foldl
    (fun a c =>
      (if c ≠ 0 then a ++ "_" else a) ++
        (if b &&& i ≠ 0 then upp.getD c "" else low.getD c "")) ""

/-- The file name the writer opens for combination `i`: the label followed by
`.hist` (line 307). -/
def vennexFileName (upp low : List String) (nway i : Nat) : String :=
  buildLabel upp low nway i ++ ".hist"

/-- Modelled from the spec (section 4.5): the intended label, in which
position `c` is uppercased exactly when bit `c` of the mask `i` is set. -/
def specLabel (upp low : List String) (nway i : Nat) : String :=
  (List.range nway).foldl
    (fun a c =>
      (if c ≠ 0 then a ++ "_" else a) ++
        (if (1 <<< c) &&& i ≠ 0 then upp.getD c "" else low.getD c "")) ""

/-! ## Input setup (`main`, lines 216-260) -/

/-- The observable part of an opened `Kmer_Stream`: its k-mer length and its
entries in sorted order. -/
structure KTable where
  kmer : Nat
  entries : List Entry
deriving Repr, DecidableEq

/-- The k-mer length agreement check of `main` (lines 246-259): `kmer` starts
at 0, is set from the first table, and every further table must report the
same value or the program exits with status 1. -/
def checkKmers : List Nat → Nat → Except String Nat
  | [], kmer => Except.ok kmer
  | k :: ks, kmer =>
      if kmer = 0 then checkKmers ks k
      else if k ≠ kmer then Except.error "K-mer tables do not involve the same K"
      else checkKmers ks kmer

/-- The configuration phase of `main` followed by the output-writing loop:
fewer than two operands is the usage error of lines 217-220, a k-mer length
disagreement is the error of lines 255-258, and only when neither fires does
the program reach the merge and then emit one file name per combination index
`1 .. ncomb` with `ncomb = (1 << nway) - 1` (lines 233 and 296-315).  The
`Except` value is the exit path: `error` is the single stderr message followed
by `exit(1)` before any merge or output work, `ok` is the list of files
written. -/
def vennexMain (tables : List KTable) (upp low : List String) :
    Except String (List String) :=
  let nway := tables.length
  if nway < 2 then
    Except.error "Usage: Vennex [-h[<int(1)>:]<int(100)>] <source_1>[.ktab] <source_2>[.ktab] ..."
  else
    match checkKmers (tables.map KTable.kmer) 0 with
    | Except.error e => Except.error e
    | Except.ok _ =>
        Except.ok ((List.range ((1 <<< nway) - 1)).map
          (fun i => vennexFileName upp low nway (i + 1)))

/-! ## The 2-way merge `Venn2` (lines 49-115)

`Venn2` walks the two streams with `iptr`/`jptr`, routing each distinct key
to one of the three histograms `AminB = comb[0]`, `BminA = comb[1]`,
`Inter = comb[2]`.  We record the loop's work as a trace of events: the
destination histogram, the key, and the contributed count handed to the
histogram update block.  The drain loop (lines 105-114) shows up as the two
base cases: when `iptr == NULL` the code swaps `T`/`AminB` to `U`/`BminA` and
drains the remaining `U` entries, and when `jptr == NULL` it drains the
remaining `T` entries into `AminB`. -/

/-- Which of the three histograms (`comb[0]`, `comb[1]`, `comb[2]`) an event
is routed to. -/
inductive Dest where
  | AminB : Dest
  | BminA : Dest
  | Inter : Dest
deriving Repr, DecidableEq

/-- One routed contribution of the 2-way merge: destination histogram, the
key consumed, and the contributed count `c` handed to the update block. -/
structure Ev where
  dest : Dest
  key : List Nat
  cnt : Nat
deriving Repr, DecidableEq

/-- Fuel-indexed body of the `Venn2` loops.  The fuel dominates the number of
compare-loop iterations (each consumes at least one entry); the base cases
are the drain behaviour.  `venn2Trace` supplies sufficient fuel and
`venn2Aux_fuel_eq` below shows the value is fuel-independent from there on. -/
def venn2Aux : Nat → List Entry → List Entry → List Ev
  | _, [], js => js.map (fun e => ⟨Dest.BminA, e.key, e.count⟩)
  | _, i :: is, [] => (i :: is).map (fun e => ⟨Dest.AminB, e.key, e.count⟩)
  | 0, _ :: _, _ :: _ => []
  | fuel + 1, i :: is, j :: js =>
      let v := mycmp i.key j.key
      if v = 0 then
        ⟨Dest.Inter, i.key, min i.count j.count⟩ :: venn2Aux fuel is js
      else if v < 0 then
        ⟨Dest.AminB, i.key, i.count⟩ :: venn2Aux fuel is (j :: js)
      else
        ⟨Dest.BminA, j.key, j.count⟩ :: venn2Aux fuel (i :: is) js

/-- The event trace of `Venn2` on streams `A` (= `Tv[0]`) and `B`
(= `Tv[1]`). -/
def venn2Trace (A B : List Entry) : List Ev :=
  venn2Aux (A.length + B.length) A B

/-- The three histograms mutated by `Venn2`, as bin-indexed counter maps. -/
structure Hists where
  AminB : Nat → Nat
  BminA : Nat → Nat
  Inter : Nat → Nat

/-- The drain loop of `Venn2` (lines 105-114) acting on the histogram the
drained stream is routed to. -/
def venn2Drain (LOW HIGH : Nat) (h : Nat → Nat) : List Entry → (Nat → Nat)
  | [] => h
  | e :: es => venn2Drain LOW HIGH (histIncDrain LOW HIGH e.count h) es

/-- Fuel-indexed stateful `Venn2`: the same control flow as `venn2Aux`, but
performing the two histogram update blocks on the `Hists` state exactly where
the source performs them (`histInc` in the compare loop, `histIncDrain` in
the drain loop). -/
def venn2LoopAux (LOW HIGH : Nat) : Nat → List Entry → List Entry → Hists → Hists
  | _, [], js, H => { H with BminA := venn2Drain LOW HIGH H.BminA js }
  | _, i :: is, [], H => { H with AminB := venn2Drain LOW HIGH H.AminB (i :: is) }
  | 0, _ :: _, _ :: _, H => H
  | fuel + 1, i :: is, j :: js, H =>
      let v := mycmp i.key j.key
      if v = 0 then
        venn2LoopAux LOW HIGH fuel is js
          { H with Inter := histInc LOW HIGH (min i.count j.count) H.Inter }
      else if v < 0 then
        venn2LoopAux LOW HIGH fuel is (j :: js)
          { H with AminB := histInc LOW HIGH i.count H.AminB }
      else
        venn2LoopAux LOW HIGH fuel (i :: is) js
          { H with BminA := histInc LOW HIGH j.count H.BminA }

/-- The stateful `Venn2` on streams `A`, `B`, starting from histogram state
`H`. -/
def venn2Loop (LOW HIGH : Nat) (A B : List Entry) (H : Hists) : Hists :=
  venn2LoopAux LOW HIGH (A.length + B.length) A B H

/-! ## The general N-way merge `Venn` (lines 117-155)

The state is the list of the `nway` stream cursors (`ptr[c]`).  One loop
iteration finds the first non-exhausted stream, scans the rest maintaining
the tied set `in[0..itop)` of streams whose current key equals the running
minimum (`ptr[imin]`), builds the bitmask `v`, advances every tied stream,
and executes `comb[v-1] += 1` — which, `comb[v-1]` being an `int64*`,
advances that base pointer by one element and writes no histogram counter. -/

/-- One recorded iteration of the `Venn` loop: the minimum key of the step,
the tied set `in[0..itop)`, and the bitmask `v`. -/
structure VStep where
  kmin : List Nat
  ins : List Nat
  mask : Nat
deriving Repr, DecidableEq

/-- Index of the first non-exhausted stream (the first loop of lines
127-131), or `none` when every stream is exhausted (line 130-131 breaks out
of the merge). -/
def firstNonempty : List (List Entry) → Option Nat
  | [] => none
  | [] :: rest => (firstNonempty rest).map (· + 1)
  | (_ :: _) :: _ => some 0

/-- The scan loop of lines 134-145 over the streams at indices `i, i+1, ...`
(`rest` is the corresponding suffix of the stream list), carrying the current
minimum owner `imin`, its key `kmin`, and the tied set `ins`.  A stream whose
key compares equal joins the tied set; a strictly smaller key resets the tied
set to that stream alone; the comparison is evaluated twice in the source
(lines 137-138), which has no further effect. -/
def vennScanAux : List (List Entry) → Nat → Nat → List Nat → List Nat →
    Nat × List Nat × List Nat
  | [], _, imin, kmin, ins => (imin, kmin, ins)
  | [] :: rest, i, imin, kmin, ins => vennScanAux rest (i + 1) imin kmin ins
  | (e :: _) :: rest, i, imin, kmin, ins =>
      let _vFirst := mycmp e.key kmin
      let v := mycmp e.key kmin
      if v = 0 then vennScanAux rest (i + 1) imin kmin (ins ++ [i])
      else if v < 0 then vennScanAux rest (i + 1) i e.key [i]
      else vennScanAux rest (i + 1) imin kmin ins

/-- Advance the cursor of every stream whose index is in the tied set (the
`ptr[x] = Next_Kmer_Entry(T[x])` of line 151); `i` is the index of the first
stream of the remaining list. -/
def advanceAll : List (List Entry) → Nat → List Nat → List (List Entry)
  | [], _, _ => []
  | s :: rest, i, ins => (if i ∈ ins then s.tail else s) :: advanceAll rest (i + 1) ins

/-- The bitmask `v` built from the tied set by `v |= (1 << x)` (lines
147-150). -/
def maskOf (ins : List Nat) : Nat := ins.foldl (fun a x => a ||| (1 <<< x)) 0

/-- One iteration of the `Venn` while-loop: locate the first live stream,
scan for the tied minimum set, build the mask, and advance the tied
streams.  Returns `none` exactly when every stream is exhausted. -/
def vennStep (strs : List (List Entry)) : Option (VStep × List (List Entry)) :=
  match firstNonempty strs with
  | none => none
  | some c =>
      match (strs.getD c []).head? with
      | none => none
      | some e =>
          let r := vennScanAux (strs.drop (c + 1)) (c + 1) c e.key [c]
          some (⟨r.2.1, r.2.2, maskOf r.2.2⟩, advanceAll strs 0 r.2.2)

/-- Total number of unconsumed entries over all streams. -/
def totalLen (strs : List (List Entry)) : Nat := (strs.map List.length).sum

/-- Fuel-indexed iteration of `vennStep`; each successful step consumes at
least one entry, so `totalLen` fuel suffices (`vennRunAux_fuel_eq` below). -/
def vennRunAux : Nat → List (List Entry) → List VStep
  | 0, _ => []
  | fuel + 1, strs =>
      match vennStep strs with
      | none => []
      | some (t, strs') => t :: vennRunAux fuel strs'

/-- The full trace of the `Venn` merge. -/
def vennRun (strs : List (List Entry)) : List VStep :=
  vennRunAux (totalLen strs) strs

/-- The distinct-key universe: every key of every stream, with repetitions
across streams. -/
def unionKeys (strs : List (List Entry)) : List (List Nat) :=
  (strs.map (List.map Entry.key)).flatten

/-! ## The memory effect of `Venn` (line 153)

`comb` is an array of `int64*` base pointers into the histogram block;
`comb[v-1] += 1` advances the pointer for mask `v` by one `int64`.  We model
the mutable state visible to `Venn` as the block's counters (`mem`, indexed
by offset from `hist`) together with the pointer offsets (`comb`). -/

/-- Histogram block memory and the `comb` pointer array, as seen by `Venn`:
`mem o` is the `int64` counter at offset `o` from `hist`, `comb j` the offset
stored in the pointer `comb[j]`. -/
structure VennMem where
  mem : Nat → Int
  comb : Nat → Int

/-- The single state-modifying statement of the `Venn` loop,
`comb[v-1] += 1` (line 153): pointer `v - 1` advances by one element; `mem`
is untouched. -/
def vennExecStep (v : Nat) (st : VennMem) : VennMem :=
  { st with comb := fun j => if j = v - 1 then st.comb j + 1 else st.comb j }

/-- The cumulative memory effect of running `Venn`: execute `comb[v-1] += 1`
once per loop iteration, in trace order. -/
def vennExec (strs : List (List Entry)) (st : VennMem) : VennMem :=
  ((vennRun strs).map VStep.mask).foldl (fun s v => vennExecStep v s) st

/-! ## Properties of the key comparator -/

lemma mycmp_nil_left (b : List Nat) : mycmp [] b = 0 := by
  cases b <;> rfl

lemma mycmp_nil_right (a : List Nat) : mycmp a [] = 0 := by
  cases a <;> rfl

lemma mycmp_cons (a b : Nat) (as bs : List Nat) :
    mycmp (a :: as) (b :: bs) =
      if a ≠ b then (if a < b then -1 else 1) else mycmp as bs := rfl

lemma mycmp_self (a : List Nat) : mycmp a a = 0 := by
  induction a with
  | nil => rfl
  | cons x xs ih => simp [mycmp_cons, ih]

lemma mycmp_cases (a b : List Nat) :
    mycmp a b = -1 ∨ mycmp a b = 0 ∨ mycmp a b = 1 := by
  induction a generalizing b with
  | nil => simp [mycmp_nil_left]
  | cons x as ih =>
      cases b with
      | nil => simp [mycmp_nil_right]
      | cons y bs =>
          rw [mycmp_cons]
          by_cases hxy : x = y
          · simpa [hxy] using ih bs
          · by_cases hlt : x < y <;> simp [hxy, hlt]

lemma mycmp_antisymm (a b : List Nat) : mycmp b a = -mycmp a b := by
  induction a generalizing b with
  | nil => simp [mycmp_nil_left, mycmp_nil_right]
  | cons x as ih =>
      cases b with
      | nil => simp [mycmp_nil_left, mycmp_nil_right]
      | cons y bs =>
          rw [mycmp_cons, mycmp_cons]
          by_cases hxy : x = y
          · simpa [hxy] using ih bs
          · have hyx : y ≠ x := fun h => hxy h.symm
            rcases Nat.lt_or_ge x y with hlt | hge
            · have : ¬ y < x := Nat.not_lt.mpr (Nat.le_of_lt hlt)
              simp [hxy, hyx, hlt, this]
            · have hlt' : y < x := Nat.lt_of_le_of_ne hge hyx
              have : ¬ x < y := Nat.not_lt.mpr (Nat.le_of_lt hlt')
              simp [hxy, hyx, hlt', this]

lemma mycmp_eq_zero (a b : List Nat) (hlen : a.length = b.length)
    (h : mycmp a b = 0) : a = b := by
  induction a generalizing b with
  | nil =>
      cases b with
      | nil => rfl
      | cons y bs => simp at hlen
  | cons x as ih =>
      cases b with
      | nil => simp at hlen
      | cons y bs =>
          rw [mycmp_cons] at h
          by_cases hxy : x = y
          · simp only [hxy, ne_eq, not_true_eq_false, if_false] at h
            have := ih bs (by simpa using hlen) (by simpa [hxy] using h)
            simp [hxy, this]
          · by_cases hlt : x < y <;> simp [hxy, hlt] at h

lemma mycmp_lt_of_lt_of_lt (a b c : List Nat)
    (hab : a.length = b.length) (hbc : b.length = c.length)
    (h1 : mycmp a b < 0) (h2 : mycmp b c < 0) : mycmp a c < 0 := by
  induction a generalizing b c with
  | nil => simp [mycmp_nil_left] at h1
  | cons x as ih =>
      cases b with
      | nil => simp at hab
      | cons y bs =>
          cases c with
          | nil => simp at hbc
          | cons z cs =>
              rw [mycmp_cons] at h1 h2 ⊢
              by_cases hxy : x = y
              · simp only [hxy, ne_eq, not_true_eq_false, if_false] at h1
                by_cases hyz : y = z
                · simp only [hyz, ne_eq, not_true_eq_false, if_false] at h2
                  have := ih bs cs (by simpa using hab) (by simpa using hbc)
                    (by simpa [hxy] using h1) (by simpa [hyz] using h2)
                  simp [hxy, hyz, this]
                · by_cases hlt : y < z
                  · have hxz : x < z := hxy ▸ hlt
                    simp [Nat.ne_of_lt hxz, hxz]
                  · simp [hyz, hlt] at h2
              · by_cases hlt : x < y
                · by_cases hyz : y = z
                  · have hxz : x < z := hyz ▸ hlt
                    simp [Nat.ne_of_lt hxz, hxz]
                  · by_cases hlt2 : y < z
                    · have hxz : x < z := Nat.lt_trans hlt hlt2
                      simp [Nat.ne_of_lt hxz, hxz]
                    · simp [hyz, hlt2] at h2
                · simp [hxy, hlt] at h1

lemma mycmp_neg_one (a b : List Nat) (h : mycmp a b < 0) : mycmp a b = -1 := by
  rcases mycmp_cases a b with h0 | h0 | h0 <;> simp [h0] at h ⊢

lemma mycmp_pos_iff_neg_swap (a b : List Nat) : 0 < mycmp a b ↔ mycmp b a < 0 := by
  rw [mycmp_antisymm b a]
  omega

lemma mycmp_lt_of_lt_of_not_lt (a b c : List Nat)
    (hab : a.length = b.length) (hcb : c.length = b.length)
    (h1 : mycmp a b < 0) (h2 : ¬ mycmp c b < 0) : mycmp a c < 0 := by
  rcases mycmp_cases c b with h0 | h0 | h0
  · simp [h0] at h2
  · have := mycmp_eq_zero c b hcb h0
    subst this
    exact h1
  · have hbc : mycmp b c < 0 := by
      have h3 := mycmp_antisymm c b
      omega
    exact mycmp_lt_of_lt_of_lt a b c hab hcb.symm h1 hbc

lemma mycmp_neg_iff_lex (a b : List Nat) (hlen : a.length = b.length) :
    mycmp a b < 0 ↔ List.Lex (· < ·) a b := by
  induction a generalizing b with
  | nil =>
      cases b with
      | nil =>
          simp only [mycmp_nil_left]
          constructor
          · omega
          · intro h; cases h
      | cons y bs => simp at hlen
  | cons x as ih =>
      cases b with
      | nil => simp at hlen
      | cons y bs =>
          rw [mycmp_cons]
          by_cases hxy : x = y
          · subst hxy
            simp only [ne_eq, not_true_eq_false, if_false]
            rw [ih bs (by simpa using hlen)]
            constructor
            · exact fun h => List.Lex.cons h
            · intro h
              cases h with
              | cons h => exact h
              | rel h => exact absurd h (lt_irrefl x)
          · by_cases hlt : x < y
            · simp only [hxy, ite_true, hlt, ne_eq, not_false_eq_true]
              constructor
              · intro _; exact List.Lex.rel hlt
              · intro _; omega
            · simp only [hxy, ne_eq, not_false_eq_true, ite_true, hlt, ite_false]
              constructor
              · omega
              · intro h
                cases h with
                | cons h => exact absurd rfl hxy
                | rel h => exact absurd h hlt

/-- C9.  The key comparator `mycmp`, applied to two keys of equal byte
length, orders them exactly as the lexicographic order on unsigned byte
sequences: it is negative iff the first is lexicographically smaller
(decided at the first differing byte), zero iff the keys are equal, and
positive iff the second is smaller.  The embedding `mycmp` is a pure
function of its arguments, so it has no side effects. -/
theorem mycmp_orders_bytes (a b : List Nat) (hlen : a.length = b.length) :
    (mycmp a b = 0 ↔ a = b) ∧
    (mycmp a b < 0 ↔ List.Lex (· < ·) a b) ∧
    (0 < mycmp a b ↔ List.Lex (· < ·) b a) := by
  refine ⟨⟨fun h => mycmp_eq_zero a b hlen h, fun h => by subst h; exact mycmp_self a⟩,
    mycmp_neg_iff_lex a b hlen, ?_⟩
  rw [mycmp_pos_iff_neg_swap]
  exact mycmp_neg_iff_lex b a hlen.symm

/-- Witness for C9 at concrete keys. -/
theorem mycmp_orders_bytes_witness :
    ([1, 2] : List Nat).length = ([1, 3] : List Nat).length ∧
    ((mycmp [1, 2] [1, 3] = 0 ↔ ([1, 2] : List Nat) = [1, 3]) ∧
     (mycmp [1, 2] [1, 3] < 0 ↔ List.Lex (· < ·) ([1, 2] : List Nat) [1, 3]) ∧
     (0 < mycmp [1, 2] [1, 3] ↔ List.Lex (· < ·) ([1, 3] : List Nat) [1, 2])) :=
  ⟨by decide, mycmp_orders_bytes [1, 2] [1, 3] (by decide)⟩

/-! ## The clamping policy (C4) -/

/-- C4.  With a configured window `1 ≤ LOW ≤ HIGH`, the histogram update
block increments exactly one bin of the histogram it is given: the bin
`binOf LOW HIGH c`, which is `LOW` when `c ≤ LOW`, `HIGH` when `c ≥ HIGH`,
and `c` when `LOW < c < HIGH`.  The drain-path copy of the block
(`histIncDrain`, lines 108-113) acts identically to the compare-path copy
(`histInc`, lines 97-102), and the default window set in `main` is
`[1, 100]`. -/
theorem clamp_exactly_one_bin (LOW HIGH c : Nat) (h : Nat → Nat)
    (hL : 1 ≤ LOW) (hLH : LOW ≤ HIGH) :
    (∀ b, histInc LOW HIGH c h b = if b = binOf LOW HIGH c then h b + 1 else h b) ∧
    (c ≤ LOW → binOf LOW HIGH c = LOW) ∧
    (HIGH ≤ c → binOf LOW HIGH c = HIGH) ∧
    (LOW < c → c < HIGH → binOf LOW HIGH c = c) ∧
    histIncDrain LOW HIGH c h = histInc LOW HIGH c h ∧
    HIST_LOW_default = 1 ∧ HIST_HGH_default = 100 := by
  refine ⟨?_, ?_, ?_, ?_, rfl, rfl, rfl⟩
  · intro b
    unfold histInc binOf
    by_cases h1 : c ≤ LOW
    · simp only [if_pos h1]
      by_cases hb : b = LOW <;> simp [hb]
    · simp only [if_neg h1]
      by_cases h2 : HIGH ≤ c
      · simp only [if_pos h2]
        by_cases hb : b = HIGH <;> simp [hb]
      · simp only [if_neg h2]
        by_cases hb : b = c <;> simp [hb]
  · intro h1; unfold binOf; split_ifs <;> omega
  · intro h2; unfold binOf; split_ifs <;> omega
  · intro h1 h2; unfold binOf; split_ifs <;> omega

/-- Witness for C4 at the default window and a strictly interior count. -/
theorem clamp_exactly_one_bin_witness :
    (1 ≤ 1 ∧ 1 ≤ 100) ∧
    ((∀ b, histInc 1 100 5 (fun _ => 0) b =
        if b = binOf 1 100 5 then (fun _ : Nat => 0) b + 1 else (fun _ : Nat => 0) b) ∧
     (5 ≤ 1 → binOf 1 100 5 = 1) ∧
     (100 ≤ 5 → binOf 1 100 5 = 100) ∧
     (1 < 5 → 5 < 100 → binOf 1 100 5 = 5) ∧
     histIncDrain 1 100 5 (fun _ => 0) = histInc 1 100 5 (fun _ => 0) ∧
     HIST_LOW_default = 1 ∧ HIST_HGH_default = 100) :=
  ⟨⟨le_refl 1, by omega⟩,
    clamp_exactly_one_bin 1 100 5 (fun _ => 0) (le_refl 1) (by omega)⟩

/-! ## The histogram bank allocation (C2) -/

/-- C2 evaluation.  With the default window `[1, 100]` and `nway = 2`
(`ncomb = 3`), the allocated and zeroed block holds `histWords 1 100 = 100`
counters, yet bin 1 (the LOW bin) of the second histogram `comb[1]` sits at
offset 100 — outside the block — and the allocated size differs from the
`(2^N − 1) * (HIGH − LOW + 1)` counters the specification prescribes.  The
size expression of line 234 omits the factor `ncomb` that the pointer layout
of lines 237-239 and all later reads and writes assume. -/
theorem hist_alloc_smaller_than_bank :
    histWords 1 100 = 100 ∧
    binAddr 1 100 1 1 = 100 ∧
    ¬ (0 ≤ binAddr 1 100 1 1 ∧ binAddr 1 100 1 1 < (histWords 1 100 : Int)) ∧
    histWords 1 100 ≠ specHistWords 2 1 100 := by
  refine ⟨rfl, by decide, ?_, by decide⟩
  intro hc
  have h1 : binAddr 1 100 1 1 = 100 := by decide
  rw [h1] at hc
  have h2 : (histWords 1 100 : Int) = 100 := by decide
  omega

/-! ## The `-h` option (C5) -/

/-- C5 counterexample.  The argument `-h1:40000` — high bound 40000, far
above 32767 — is accepted: the parser returns the window rather than
exiting, because the two-number form never range-checks the second number
(only `HIST_LOW`, the first number, passes through the range test of lines
188-192). -/
theorem hArg_high_bound_unchecked :
    parseH ("1:40000".toList) = some (1, 40000) := by decide

/-- C5 amended.  Complete characterization of the `-h` handler: the option
is accepted — rather than exiting nonzero with a stderr message — exactly
when the argument text parses as a first number `n` with `1 ≤ n ≤ 32767`
followed either by nothing (single-number form: the window becomes
`[1, n]`, so a lone number above 32767 such as `-h40000` IS rejected by the
range test of lines 188-192) or by a colon and a second number `hi2`
consuming the rest of the argument with `n ≤ hi2` (two-number form: the
window becomes `[n, hi2]` and `hi2` is never range-checked).  In
particular, a first number outside `[1, 32767]`, a pair with low > high,
and malformed numeric syntax (no conversion, or trailing junk) all take the
nonzero-exit path, as the appended concrete rejections illustrate. -/
theorem hArg_validation (s : List Char) (lo hi : Int) :
    (parseH s = some (lo, hi) ↔
      ∃ n rest, strtol s = some (n, rest) ∧ 1 ≤ n ∧ n ≤ 0x7fff ∧
        ((rest = [] ∧ lo = 1 ∧ hi = n) ∨
         (∃ rest2 hi2, rest = ':' :: rest2 ∧ strtol rest2 = some (hi2, []) ∧
            n ≤ hi2 ∧ lo = n ∧ hi = hi2))) ∧
    parseH ("40000".toList) = none ∧
    parseH ("0".toList) = none ∧
    parseH ("x7".toList) = none ∧
    parseH ("7:3".toList) = none := by
  refine ⟨⟨?_, ?_⟩, by decide, by decide, by decide, by decide⟩
  · intro hacc
    unfold parseH at hacc
    cases hst : strtol s with
    | none => rw [hst] at hacc; exact absurd hacc (by simp)
    | some p =>
        obtain ⟨n, rest⟩ := p
        rw [hst] at hacc
        simp only at hacc
        by_cases hrange : n < 1 ∨ 0x7fff < n
        · rw [if_pos hrange] at hacc; exact absurd hacc (by simp)
        · rw [if_neg hrange] at hacc
          push_neg at hrange
          refine ⟨n, rest, rfl, hrange.1, hrange.2, ?_⟩
          cases rest with
          | nil =>
              simp only [Option.some.injEq, Prod.mk.injEq] at hacc
              exact Or.inl ⟨rfl, hacc.1.symm, hacc.2.symm⟩
          | cons c rest2 =>
              simp only at hacc
              by_cases hc : c = ':'
              · rw [if_pos hc] at hacc
                cases hst2 : strtol rest2 with
                | none => rw [hst2] at hacc; exact absurd hacc (by simp)
                | some q =>
                    obtain ⟨hi2, rest3⟩ := q
                    rw [hst2] at hacc
                    simp only at hacc
                    by_cases hr3 : rest3 = []
                    · rw [if_pos hr3] at hacc
                      by_cases hhl : hi2 < n
                      · rw [if_pos hhl] at hacc; exact absurd hacc (by simp)
                      · rw [if_neg hhl] at hacc
                        simp only [Option.some.injEq, Prod.mk.injEq] at hacc
                        refine Or.inr ⟨rest2, hi2, by rw [hc], ?_, by omega,
                          hacc.1.symm, hacc.2.symm⟩
                        rw [← hr3]
                        exact hst2
                    · rw [if_neg hr3] at hacc
                      exact absurd hacc (by simp)
              · rw [if_neg hc] at hacc
                exact absurd hacc (by simp)
  · rintro ⟨n, rest, hst, h1, h2, hor⟩
    unfold parseH
    rw [hst]
    simp only
    rw [if_neg (by omega)]
    rcases hor with ⟨hrest, hlo, hhi⟩ | ⟨rest2, hi2, hrest, hst2, hle, hlo, hhi⟩
    · subst hrest; subst hlo; subst hhi
      rfl
    · subst hrest
      show (if (':' : Char) = ':' then
             (match strtol rest2 with
              | some (hi, rest3) =>
                  if rest3 = [] then (if hi < n then none else some (n, hi)) else none
              | none => none)
            else none) = some (lo, hi)
      rw [if_pos rfl, hst2]
      show (if ([] : List Char) = [] then
              (if hi2 < n then none else some (n, hi2)) else none) = some (lo, hi)
      rw [if_pos rfl, if_neg (by omega)]
      rw [hlo, hhi]

/-! ## The output writer's file names (C7) -/

/-- C7 evaluation.  With two inputs named `A`/`a` and `B`/`b`, the writer
produces `a_b.hist` for mask 2 where the specified label is `a_B` (bit 1 of
the mask selects the second input's uppercase form), and masks 1 and 3
collide on the same name `A_B.hist`: the never-shifted selector `b` makes
the case of every identifier depend only on bit 0 of the mask, so the writer
does not emit one distinctly-named file per subset. -/
theorem writer_label_ignores_bits :
    vennexFileName ["A", "B"] ["a", "b"] 2 2 = "a_b.hist" ∧
    specLabel ["A", "B"] ["a", "b"] 2 2 = "a_B" ∧
    vennexFileName ["A", "B"] ["a", "b"] 2 1 = "A_B.hist" ∧
    vennexFileName ["A", "B"] ["a", "b"] 2 3 = "A_B.hist" := by
  refine ⟨?_, ?_, ?_, ?_⟩ <;> rfl

/-! ## Configuration errors (C8) -/

lemma checkKmers_ok_all_eq : ∀ (ks : List Nat) (kmer r : Nat), 0 < kmer →
    checkKmers ks kmer = Except.ok r → ∀ k ∈ ks, k = kmer := by
  intro ks
  induction ks with
  | nil => intro kmer r _ _ k hk; simp at hk
  | cons k0 ks ih =>
      intro kmer r hpos hok k hk
      unfold checkKmers at hok
      rw [if_neg (by omega)] at hok
      by_cases hne : k0 ≠ kmer
      · rw [if_pos hne] at hok; exact absurd hok (by simp)
      · rw [if_neg hne] at hok
        push_neg at hne
        rcases List.mem_cons.mp hk with h | h
        · simpa [h] using hne
        · exact ih kmer r hpos hok k h

/-- C8.  Whenever fewer than two source operands are given or two opened
tables report different (positive) k-mer lengths, `vennexMain` takes the
`Except.error` path: the single error message, printed to stderr before
`exit(1)`, and — the merge and writer living only on the `Except.ok` path —
no merge work happens and no histogram output file is produced.  (An opened
k-mer table always reports a positive k-mer length; the value 0 is the
sentinel `main` uses for "no table seen yet".) -/
theorem config_errors_abort (tables : List KTable) (upp low : List String)
    (hpos : ∀ t ∈ tables, 0 < t.kmer)
    (hbad : tables.length < 2 ∨ ∃ t ∈ tables, ∃ u ∈ tables, t.kmer ≠ u.kmer) :
    ∃ msg, vennexMain tables upp low = Except.error msg := by
  by_cases hlen2 : tables.length < 2
  · exact ⟨_, by unfold vennexMain; rw [if_pos hlen2]⟩
  · rcases hbad with h | ⟨t, ht, u, hu, hne⟩
    · exact absurd h hlen2
    · cases hck : checkKmers (tables.map KTable.kmer) 0 with
      | error e =>
          refine ⟨e, ?_⟩
          unfold vennexMain
          rw [if_neg hlen2, hck]
      | ok r =>
          exfalso
          cases hm : tables.map KTable.kmer with
          | nil =>
              have : tables = [] := by
                cases tables with
                | nil => rfl
                | cons a l => simp at hm
              rw [this] at ht
              simp at ht
          | cons k1 rest =>
              rw [hm] at hck
              unfold checkKmers at hck
              rw [if_pos rfl] at hck
              have hk1 : k1 ∈ tables.map KTable.kmer := by rw [hm]; exact List.mem_cons_self _ _
              obtain ⟨t1, ht1, hk1eq⟩ := List.mem_map.mp hk1
              have hk1pos : 0 < k1 := hk1eq ▸ hpos t1 ht1
              have hall := checkKmers_ok_all_eq rest k1 r hk1pos hck
              have hmem : ∀ k ∈ tables.map KTable.kmer, k = k1 := by
                intro k hk
                rw [hm] at hk
                rcases List.mem_cons.mp hk with h | h
                · exact h
                · exact hall k h
              have h1 : t.kmer = k1 := hmem _ (List.mem_map_of_mem _ ht)
              have h2 : u.kmer = k1 := hmem _ (List.mem_map_of_mem _ hu)
              exact hne (h1.trans h2.symm)

/-- Witness for C8: two tables with k-mer lengths 4 and 5. -/
theorem config_errors_abort_witness :
    ((∀ t ∈ [(⟨4, []⟩ : KTable), ⟨5, []⟩], 0 < t.kmer) ∧
     (([(⟨4, []⟩ : KTable), ⟨5, []⟩].length < 2) ∨
       ∃ t ∈ [(⟨4, []⟩ : KTable), ⟨5, []⟩], ∃ u ∈ [(⟨4, []⟩ : KTable), ⟨5, []⟩],
         t.kmer ≠ u.kmer)) ∧
    ∃ msg, vennexMain [(⟨4, []⟩ : KTable), ⟨5, []⟩] [] [] = Except.error msg :=
  ⟨⟨by decide, Or.inr ⟨⟨4, []⟩, by simp, ⟨5, []⟩, by simp, by decide⟩⟩,
    config_errors_abort _ [] [] (by decide)
      (Or.inr ⟨⟨4, []⟩, by simp, ⟨5, []⟩, by simp, by decide⟩)⟩

/-! ## Fuel irrelevance and unfolding for the 2-way merge -/

lemma venn2Aux_nil_left (f : Nat) (B : List Entry) :
    venn2Aux f [] B = B.map (fun e => ⟨Dest.BminA, e.key, e.count⟩) := by
  cases f <;> rfl

lemma venn2Aux_cons_nil (f : Nat) (i : Entry) (is : List Entry) :
    venn2Aux f (i :: is) [] = (i :: is).map (fun e => ⟨Dest.AminB, e.key, e.count⟩) := by
  cases f <;> rfl

lemma venn2Aux_succ_cons (f : Nat) (i j : Entry) (is js : List Entry) :
    venn2Aux (f + 1) (i :: is) (j :: js) =
      (if mycmp i.key j.key = 0 then
        ⟨Dest.Inter, i.key, min i.count j.count⟩ :: venn2Aux f is js
      else if mycmp i.key j.key < 0 then
        ⟨Dest.AminB, i.key, i.count⟩ :: venn2Aux f is (j :: js)
      else
        ⟨Dest.BminA, j.key, j.count⟩ :: venn2Aux f (i :: is) js) := rfl

lemma venn2Aux_fuel_eq : ∀ (f g : Nat) (A B : List Entry),
    A.length + B.length ≤ f → A.length + B.length ≤ g →
    venn2Aux f A B = venn2Aux g A B := by
  intro f
  induction f with
  | zero =>
      intro g A B hf _
      cases A with
      | nil => rw [venn2Aux_nil_left, venn2Aux_nil_left]
      | cons i is => simp at hf
  | succ f ih =>
      intro g A B hf hg
      cases A with
      | nil => rw [venn2Aux_nil_left, venn2Aux_nil_left]
      | cons i is =>
          cases B with
          | nil => rw [venn2Aux_cons_nil, venn2Aux_cons_nil]
          | cons j js =>
              cases g with
              | zero => simp at hg
              | succ g =>
                  rw [venn2Aux_succ_cons, venn2Aux_succ_cons]
                  simp only [List.length_cons] at hf hg
                  by_cases h0 : mycmp i.key j.key = 0
                  · rw [if_pos h0, if_pos h0]
                    exact congrArg _ (ih g is js (by omega) (by omega))
                  · rw [if_neg h0, if_neg h0]
                    by_cases h1 : mycmp i.key j.key < 0
                    · rw [if_pos h1, if_pos h1]
                      exact congrArg _ (ih g is (j :: js) (by simp; omega) (by simp; omega))
                    · rw [if_neg h1, if_neg h1]
                      exact congrArg _ (ih g (i :: is) js (by simp; omega) (by simp; omega))

lemma venn2Trace_nil_left (B : List Entry) :
    venn2Trace [] B = B.map (fun e => ⟨Dest.BminA, e.key, e.count⟩) :=
  venn2Aux_nil_left _ B

lemma venn2Trace_cons_nil (i : Entry) (is : List Entry) :
    venn2Trace (i :: is) [] = (i :: is).map (fun e => ⟨Dest.AminB, e.key, e.count⟩) :=
  venn2Aux_cons_nil _ i is

lemma venn2Trace_inter (i j : Entry) (is js : List Entry)
    (h : mycmp i.key j.key = 0) :
    venn2Trace (i :: is) (j :: js) =
      ⟨Dest.Inter, i.key, min i.count j.count⟩ :: venn2Trace is js := by
  show venn2Aux ((i :: is).length + (j :: js).length) (i :: is) (j :: js) = _
  have hl : (i :: is).length + (j :: js).length = (is.length + (j :: js).length) + 1 := by
    simp; omega
  rw [hl, venn2Aux_succ_cons, if_pos h]
  exact congrArg _ (venn2Aux_fuel_eq _ _ is js (by simp only [List.length_cons]; omega)
    (le_refl _))

lemma venn2Trace_lt (i j : Entry) (is js : List Entry)
    (h0 : ¬ mycmp i.key j.key = 0) (h : mycmp i.key j.key < 0) :
    venn2Trace (i :: is) (j :: js) =
      ⟨Dest.AminB, i.key, i.count⟩ :: venn2Trace is (j :: js) := by
  show venn2Aux ((i :: is).length + (j :: js).length) (i :: is) (j :: js) = _
  have hl : (i :: is).length + (j :: js).length = (is.length + (j :: js).length) + 1 := by
    simp; omega
  rw [hl, venn2Aux_succ_cons, if_neg h0, if_pos h]
  rfl

lemma venn2Trace_gt (i j : Entry) (is js : List Entry)
    (h0 : ¬ mycmp i.key j.key = 0) (h : ¬ mycmp i.key j.key < 0) :
    venn2Trace (i :: is) (j :: js) =
      ⟨Dest.BminA, j.key, j.count⟩ :: venn2Trace (i :: is) js := by
  show venn2Aux ((i :: is).length + (j :: js).length) (i :: is) (j :: js) = _
  have hl : (i :: is).length + (j :: js).length = ((i :: is).length + js.length) + 1 := by
    simp; omega
  rw [hl, venn2Aux_succ_cons, if_neg h0, if_neg h]
  exact congrArg _ (venn2Aux_fuel_eq _ _ (i :: is) js (by simp only [List.length_cons]; omega)
    (le_refl _))

/-! ## Consumption accounting for the 2-way merge -/

lemma countP_drain_map (C : List Entry) (d d' : Dest) :
    (C.map (fun e => (⟨d, e.key, e.count⟩ : Ev))).countP (fun ev => ev.dest == d') =
      if d = d' then C.length else 0 := by
  induction C with
  | nil => simp
  | cons e C ihc =>
      simp only [List.map_cons, List.countP_cons, ihc]
      by_cases h : d = d' <;> simp [h]

lemma venn2_counts : ∀ (n : Nat) (A B : List Entry), A.length + B.length = n →
    ((venn2Trace A B).countP (fun ev => ev.dest == Dest.AminB) +
       (venn2Trace A B).countP (fun ev => ev.dest == Dest.Inter) = A.length) ∧
    ((venn2Trace A B).countP (fun ev => ev.dest == Dest.BminA) +
       (venn2Trace A B).countP (fun ev => ev.dest == Dest.Inter) = B.length) := by
  intro n
  induction n using Nat.strong_induction_on with
  | _ n ih =>
      intro A B hn
      cases A with
      | nil =>
          rw [venn2Trace_nil_left]
          rw [countP_drain_map, countP_drain_map, countP_drain_map]
          simp
      | cons i is =>
          cases B with
          | nil =>
              rw [venn2Trace_cons_nil]
              rw [countP_drain_map, countP_drain_map, countP_drain_map]
              simp
          | cons j js =>
              have hn' : is.length + js.length + 2 = n := by
                simp only [List.length_cons] at hn; omega
              by_cases h0 : mycmp i.key j.key = 0
              · rw [venn2Trace_inter i j is js h0]
                have := ih (is.length + js.length) (by omega) is js rfl
                simp only [List.countP_cons, List.length_cons]
                constructor <;> [skip; skip] <;> simp <;> omega
              · by_cases h1 : mycmp i.key j.key < 0
                · rw [venn2Trace_lt i j is js h0 h1]
                  have := ih (is.length + (j :: js).length)
                    (by simp only [List.length_cons]; omega) is (j :: js) rfl
                  simp only [List.countP_cons, List.length_cons] at this ⊢
                  constructor <;> simp <;> omega
                · rw [venn2Trace_gt i j is js h0 h1]
                  have := ih ((i :: is).length + js.length)
                    (by simp only [List.length_cons]; omega) (i :: is) js rfl
                  simp only [List.countP_cons, List.length_cons] at this ⊢
                  constructor <;> simp <;> omega

lemma venn2Trace_key_mem : ∀ (n : Nat) (A B : List Entry), A.length + B.length = n →
    ∀ ev ∈ venn2Trace A B, ev.key ∈ A.map Entry.key ∨ ev.key ∈ B.map Entry.key := by
  intro n
  induction n using Nat.strong_induction_on with
  | _ n ih =>
      intro A B hn ev hev
      cases A with
      | nil =>
          rw [venn2Trace_nil_left] at hev
          obtain ⟨e, he, rfl⟩ := List.mem_map.mp hev
          exact Or.inr (List.mem_map_of_mem _ he)
      | cons i is =>
          cases B with
          | nil =>
              rw [venn2Trace_cons_nil] at hev
              obtain ⟨e, he, rfl⟩ := List.mem_map.mp hev
              exact Or.inl (List.mem_map_of_mem _ he)
          | cons j js =>
              by_cases h0 : mycmp i.key j.key = 0
              · rw [venn2Trace_inter i j is js h0] at hev
                rcases List.mem_cons.mp hev with rfl | hev'
                · exact Or.inl (by simp)
                · rcases ih (is.length + js.length)
                      (by simp only [List.length_cons] at hn; omega) is js rfl ev hev' with
                    h | h
                  · exact Or.inl (by simp only [List.map_cons]; exact List.mem_cons_of_mem _ h)
                  · exact Or.inr (by simp only [List.map_cons]; exact List.mem_cons_of_mem _ h)
              · by_cases h1 : mycmp i.key j.key < 0
                · rw [venn2Trace_lt i j is js h0 h1] at hev
                  rcases List.mem_cons.mp hev with rfl | hev'
                  · exact Or.inl (by simp)
                  · rcases ih (is.length + (j :: js).length)
                        (by simp only [List.length_cons] at hn ⊢; omega) is (j :: js) rfl
                        ev hev' with h | h
                    · exact Or.inl (by simp only [List.map_cons]; exact List.mem_cons_of_mem _ h)
                    · exact Or.inr h
                · rw [venn2Trace_gt i j is js h0 h1] at hev
                  rcases List.mem_cons.mp hev with rfl | hev'
                  · exact Or.inr (by simp)
                  · rcases ih ((i :: is).length + js.length)
                        (by simp only [List.length_cons] at hn ⊢; omega) (i :: is) js rfl
                        ev hev' with h | h
                    · exact Or.inl h
                    · exact Or.inr (by simp only [List.map_cons]; exact List.mem_cons_of_mem _ h)

/-! ## The intersection route of the 2-way merge (C3) -/

lemma key_ne_of_pairwise (i : Entry) (l : List Entry) (k : List Nat) (c : Nat)
    (hp : ∀ e ∈ l, mycmp i.key e.key < 0) (hmem : Entry.mk k c ∈ l) :
    i.key ≠ k := by
  intro hk
  have := hp _ hmem
  rw [hk] at this
  rw [mycmp_self] at this
  omega

lemma venn2_common_filter (kbyte : Nat) : ∀ (n : Nat) (A B : List Entry),
    A.length + B.length = n →
    (∀ e ∈ A, e.key.length = kbyte) → (∀ e ∈ B, e.key.length = kbyte) →
    List.Pairwise (fun e f : Entry => mycmp e.key f.key < 0) A →
    List.Pairwise (fun e f : Entry => mycmp e.key f.key < 0) B →
    ∀ (k : List Nat) (c1 c2 : Nat), Entry.mk k c1 ∈ A → Entry.mk k c2 ∈ B →
    (venn2Trace A B).filter (fun ev => ev.key == k) =
      [⟨Dest.Inter, k, min c1 c2⟩] := by
  intro n
  induction n using Nat.strong_induction_on with
  | _ n ih =>
      intro A B hn hlA hlB hsA hsB k c1 c2 hA hB
      cases A with
      | nil => simp at hA
      | cons i is =>
          cases B with
          | nil => simp at hB
          | cons j js =>
              have hik : i.key.length = kbyte := hlA i (List.mem_cons_self _ _)
              have hjk : j.key.length = kbyte := hlB j (List.mem_cons_self _ _)
              have hkk : k.length = kbyte := by
                rcases List.mem_cons.mp hA with h | h
                · have : i.key = k := congrArg Entry.key h.symm
                  rw [← this]; exact hik
                · exact hlA _ (List.mem_cons_of_mem _ h)
              have hpA := (List.pairwise_cons.mp hsA).1
              have hpB := (List.pairwise_cons.mp hsB).1
              by_cases h0 : mycmp i.key j.key = 0
              · have hij : i.key = j.key := mycmp_eq_zero _ _ (hik.trans hjk.symm) h0
                by_cases hk : i.key = k
                · -- the common key is at the heads of both streams
                  have hc1 : Entry.mk k c1 = i := by
                    rcases List.mem_cons.mp hA with h | h
                    · exact h
                    · exact absurd hk (key_ne_of_pairwise i is k c1 hpA h)
                  have hc2 : Entry.mk k c2 = j := by
                    rcases List.mem_cons.mp hB with h | h
                    · exact h
                    · exact absurd (hij ▸ hk) (key_ne_of_pairwise j js k c2 hpB h)
                  have hc1' : c1 = i.count := congrArg Entry.count hc1
                  have hc2' : c2 = j.count := congrArg Entry.count hc2
                  rw [venn2Trace_inter i j is js h0, List.filter_cons]
                  have hpred : ((⟨Dest.Inter, i.key, min i.count j.count⟩ : Ev).key == k)
                      = true := by simp [hk]
                  rw [if_pos hpred]
                  have htail : (venn2Trace is js).filter (fun ev => ev.key == k) = [] := by
                    rw [List.filter_eq_nil_iff]
                    intro ev hev
                    have hm := venn2Trace_key_mem (is.length + js.length) is js rfl ev hev
                    simp only [beq_iff_eq]
                    intro hevk
                    rcases hm with h | h
                    · obtain ⟨e, he, hek⟩ := List.mem_map.mp h
                      have := hpA e he
                      have hex : e.key = k := hek.trans hevk
                      rw [hk, hex] at this
                      rw [mycmp_self] at this
                      omega
                    · obtain ⟨e, he, hek⟩ := List.mem_map.mp h
                      have := hpB e he
                      have hex : e.key = k := hek.trans hevk
                      have hjkk : j.key = k := hij.symm.trans hk
                      rw [hjkk, hex] at this
                      rw [mycmp_self] at this
                      omega
                  rw [htail, hk, hc1', hc2']
                · -- the common key lies strictly deeper in both streams
                  have hA' : Entry.mk k c1 ∈ is := by
                    rcases List.mem_cons.mp hA with h | h
                    · exact absurd (congrArg Entry.key h.symm) hk
                    · exact h
                  have hB' : Entry.mk k c2 ∈ js := by
                    rcases List.mem_cons.mp hB with h | h
                    · exact absurd (congrArg Entry.key h.symm) (hij ▸ hk)
                    · exact h
                  rw [venn2Trace_inter i j is js h0, List.filter_cons]
                  have hpred : ((⟨Dest.Inter, i.key, min i.count j.count⟩ : Ev).key == k)
                      = false := by simp [hk]
                  rw [if_neg (by simp [hpred])]
                  exact ih (is.length + js.length)
                    (by simp only [List.length_cons] at hn; omega) is js rfl
                    (fun e he => hlA e (List.mem_cons_of_mem _ he))
                    (fun e he => hlB e (List.mem_cons_of_mem _ he))
                    (List.Pairwise.of_cons hsA) (List.Pairwise.of_cons hsB)
                    k c1 c2 hA' hB'
              · by_cases h1 : mycmp i.key j.key < 0
                · -- i.key is strictly smaller: it cannot be the common key
                  have hk : i.key ≠ k := by
                    intro hk
                    rcases List.mem_cons.mp hB with h | h
                    · have hjkk : j.key = k := congrArg Entry.key h.symm
                      rw [hk, ← hjkk] at h0
                      exact h0 (mycmp_self j.key)
                    · have h2 := hpB _ h
                      have h3 : mycmp i.key k < 0 :=
                        mycmp_lt_of_lt_of_lt i.key j.key k
                          (hik.trans hjk.symm) (hjk.trans hkk.symm) h1 h2
                      rw [hk] at h3
                      rw [mycmp_self] at h3
                      omega
                  have hA' : Entry.mk k c1 ∈ is := by
                    rcases List.mem_cons.mp hA with h | h
                    · exact absurd (congrArg Entry.key h.symm) hk
                    · exact h
                  rw [venn2Trace_lt i j is js h0 h1, List.filter_cons]
                  rw [if_neg (by simp [hk])]
                  exact ih (is.length + (j :: js).length)
                    (by simp only [List.length_cons] at hn ⊢; omega) is (j :: js) rfl
                    (fun e he => hlA e (List.mem_cons_of_mem _ he)) hlB
                    (List.Pairwise.of_cons hsA) hsB k c1 c2 hA' hB
                · -- j.key is strictly smaller: it cannot be the common key
                  have hgt : mycmp j.key i.key < 0 := by
                    rcases mycmp_cases i.key j.key with h | h | h
                    · omega
                    · exact absurd h h0
                    · have := mycmp_antisymm i.key j.key
                      omega
                  have hk : j.key ≠ k := by
                    intro hk
                    rcases List.mem_cons.mp hA with h | h
                    · have hikk : i.key = k := congrArg Entry.key h.symm
                      rw [hk, ← hikk] at h0
                      exact h0 (mycmp_self i.key)
                    · have h2 := hpA _ h
                      have h3 : mycmp j.key k < 0 :=
                        mycmp_lt_of_lt_of_lt j.key i.key k
                          (hjk.trans hik.symm) (hik.trans hkk.symm) hgt h2
                      rw [hk] at h3
                      rw [mycmp_self] at h3
                      omega
                  have hB' : Entry.mk k c2 ∈ js := by
                    rcases List.mem_cons.mp hB with h | h
                    · exact absurd (congrArg Entry.key h.symm) hk
                    · exact h
                  rw [venn2Trace_gt i j is js h0 h1, List.filter_cons]
                  rw [if_neg (by simp [hk])]
                  exact ih ((i :: is).length + js.length)
                    (by simp only [List.length_cons] at hn ⊢; omega) (i :: is) js rfl
                    hlA (fun e he => hlB e (List.mem_cons_of_mem _ he))
                    hsA (List.Pairwise.of_cons hsB) k c1 c2 hA hB'

/-! ## The stateful 2-way merge agrees with its trace -/

lemma venn2Drain_foldl (L H : Nat) (h : Nat → Nat) (C : List Entry) :
    venn2Drain L H h C = C.foldl (fun hh e => histInc L H e.count hh) h := by
  induction C generalizing h with
  | nil => rfl
  | cons e es ihc => exact ihc _

lemma venn2LoopAux_nil_left (L H f : Nat) (B : List Entry) (Hs : Hists) :
    venn2LoopAux L H f [] B Hs = { Hs with BminA := venn2Drain L H Hs.BminA B } := by
  cases f <;> rfl

lemma venn2LoopAux_cons_nil (L H f : Nat) (i : Entry) (is : List Entry) (Hs : Hists) :
    venn2LoopAux L H f (i :: is) [] Hs =
      { Hs with AminB := venn2Drain L H Hs.AminB (i :: is) } := by
  cases f <;> rfl

lemma venn2LoopAux_succ_cons (L H f : Nat) (i j : Entry) (is js : List Entry) (Hs : Hists) :
    venn2LoopAux L H (f + 1) (i :: is) (j :: js) Hs =
      (if mycmp i.key j.key = 0 then
        venn2LoopAux L H f is js
          { Hs with Inter := histInc L H (min i.count j.count) Hs.Inter }
      else if mycmp i.key j.key < 0 then
        venn2LoopAux L H f is (j :: js)
          { Hs with AminB := histInc L H i.count Hs.AminB }
      else
        venn2LoopAux L H f (i :: is) js
          { Hs with BminA := histInc L H j.count Hs.BminA }) := rfl

lemma venn2LoopAux_fuel_eq (L H : Nat) : ∀ (f g : Nat) (A B : List Entry) (Hs : Hists),
    A.length + B.length ≤ f → A.length + B.length ≤ g →
    venn2LoopAux L H f A B Hs = venn2LoopAux L H g A B Hs := by
  intro f
  induction f with
  | zero =>
      intro g A B Hs hf _
      cases A with
      | nil => rw [venn2LoopAux_nil_left, venn2LoopAux_nil_left]
      | cons i is => simp at hf
  | succ f ih =>
      intro g A B Hs hf hg
      cases A with
      | nil => rw [venn2LoopAux_nil_left, venn2LoopAux_nil_left]
      | cons i is =>
          cases B with
          | nil => rw [venn2LoopAux_cons_nil, venn2LoopAux_cons_nil]
          | cons j js =>
              cases g with
              | zero => simp at hg
              | succ g =>
                  rw [venn2LoopAux_succ_cons, venn2LoopAux_succ_cons]
                  simp only [List.length_cons] at hf hg
                  by_cases h0 : mycmp i.key j.key = 0
                  · rw [if_pos h0, if_pos h0]
                    exact ih g is js _ (by omega) (by omega)
                  · rw [if_neg h0, if_neg h0]
                    by_cases h1 : mycmp i.key j.key < 0
                    · rw [if_pos h1, if_pos h1]
                      exact ih g is (j :: js) _ (by simp only [List.length_cons]; omega)
                        (by simp only [List.length_cons]; omega)
                    · rw [if_neg h1, if_neg h1]
                      exact ih g (i :: is) js _ (by simp only [List.length_cons]; omega)
                        (by simp only [List.length_cons]; omega)

lemma venn2Loop_nil_left (L H : Nat) (B : List Entry) (Hs : Hists) :
    venn2Loop L H [] B Hs = { Hs with BminA := venn2Drain L H Hs.BminA B } :=
  venn2LoopAux_nil_left L H _ B Hs

lemma venn2Loop_cons_nil (L H : Nat) (i : Entry) (is : List Entry) (Hs : Hists) :
    venn2Loop L H (i :: is) [] Hs =
      { Hs with AminB := venn2Drain L H Hs.AminB (i :: is) } :=
  venn2LoopAux_cons_nil L H _ i is Hs

lemma venn2Loop_inter (L H : Nat) (i j : Entry) (is js : List Entry) (Hs : Hists)
    (h0 : mycmp i.key j.key = 0) :
    venn2Loop L H (i :: is) (j :: js) Hs =
      venn2Loop L H is js
        { Hs with Inter := histInc L H (min i.count j.count) Hs.Inter } := by
  show venn2LoopAux L H ((i :: is).length + (j :: js).length) (i :: is) (j :: js) Hs = _
  have hl : (i :: is).length + (j :: js).length = (is.length + (j :: js).length) + 1 := by
    simp only [List.length_cons]; omega
  rw [hl, venn2LoopAux_succ_cons, if_pos h0]
  exact venn2LoopAux_fuel_eq L H _ _ is js _ (by simp only [List.length_cons]; omega)
    (le_refl _)

lemma venn2Loop_lt (L H : Nat) (i j : Entry) (is js : List Entry) (Hs : Hists)
    (h0 : ¬ mycmp i.key j.key = 0) (h1 : mycmp i.key j.key < 0) :
    venn2Loop L H (i :: is) (j :: js) Hs =
      venn2Loop L H is (j :: js) { Hs with AminB := histInc L H i.count Hs.AminB } := by
  show venn2LoopAux L H ((i :: is).length + (j :: js).length) (i :: is) (j :: js) Hs = _
  have hl : (i :: is).length + (j :: js).length = (is.length + (j :: js).length) + 1 := by
    simp only [List.length_cons]; omega
  rw [hl, venn2LoopAux_succ_cons, if_neg h0, if_pos h1]
  rfl

lemma venn2Loop_gt (L H : Nat) (i j : Entry) (is js : List Entry) (Hs : Hists)
    (h0 : ¬ mycmp i.key j.key = 0) (h1 : ¬ mycmp i.key j.key < 0) :
    venn2Loop L H (i :: is) (j :: js) Hs =
      venn2Loop L H (i :: is) js { Hs with BminA := histInc L H j.count Hs.BminA } := by
  show venn2LoopAux L H ((i :: is).length + (j :: js).length) (i :: is) (j :: js) Hs = _
  have hl : (i :: is).length + (j :: js).length = ((i :: is).length + js.length) + 1 := by
    simp only [List.length_cons]; omega
  rw [hl, venn2LoopAux_succ_cons, if_neg h0, if_neg h1]
  exact venn2LoopAux_fuel_eq L H _ _ (i :: is) js _ (by simp only [List.length_cons]; omega)
    (le_refl _)

lemma filter_drain_map_ne (C : List Entry) (d d' : Dest) (hne : d ≠ d') :
    (C.map (fun e => (⟨d, e.key, e.count⟩ : Ev))).filter (fun ev => ev.dest == d') = [] := by
  rw [List.filter_eq_nil_iff]
  intro ev hev
  obtain ⟨e, _, rfl⟩ := List.mem_map.mp hev
  simp [hne]

lemma filter_drain_map_eq (C : List Entry) (d : Dest) :
    (C.map (fun e => (⟨d, e.key, e.count⟩ : Ev))).filter (fun ev => ev.dest == d) =
      C.map (fun e => (⟨d, e.key, e.count⟩ : Ev)) := by
  rw [List.filter_eq_self]
  intro ev hev
  obtain ⟨e, _, rfl⟩ := List.mem_map.mp hev
  simp

lemma venn2Loop_eq_fold (L H : Nat) : ∀ (n : Nat) (A B : List Entry) (Hs : Hists),
    A.length + B.length = n →
    ((venn2Loop L H A B Hs).AminB =
       ((venn2Trace A B).filter (fun ev => ev.dest == Dest.AminB)).foldl
         (fun hh ev => histInc L H ev.cnt hh) Hs.AminB) ∧
    ((venn2Loop L H A B Hs).BminA =
       ((venn2Trace A B).filter (fun ev => ev.dest == Dest.BminA)).foldl
         (fun hh ev => histInc L H ev.cnt hh) Hs.BminA) ∧
    ((venn2Loop L H A B Hs).Inter =
       ((venn2Trace A B).filter (fun ev => ev.dest == Dest.Inter)).foldl
         (fun hh ev => histInc L H ev.cnt hh) Hs.Inter) := by
  intro n
  induction n using Nat.strong_induction_on with
  | _ n ih =>
      intro A B Hs hn
      cases A with
      | nil =>
          rw [venn2Loop_nil_left, venn2Trace_nil_left]
          refine ⟨?_, ?_, ?_⟩
          · rw [filter_drain_map_ne B Dest.BminA Dest.AminB (by decide)]
            rfl
          · rw [venn2Drain_foldl, filter_drain_map_eq, List.foldl_map]
          · rw [filter_drain_map_ne B Dest.BminA Dest.Inter (by decide)]
            rfl
      | cons i is =>
          cases B with
          | nil =>
              rw [venn2Loop_cons_nil, venn2Trace_cons_nil]
              refine ⟨?_, ?_, ?_⟩
              · rw [venn2Drain_foldl, filter_drain_map_eq, List.foldl_map]
              · rw [filter_drain_map_ne (i :: is) Dest.AminB Dest.BminA (by decide)]
                rfl
              · rw [filter_drain_map_ne (i :: is) Dest.AminB Dest.Inter (by decide)]
                rfl
          | cons j js =>
              have hn2 : (i :: is).length + (j :: js).length = n := hn
              simp only [List.length_cons] at hn2
              by_cases h0 : mycmp i.key j.key = 0
              · rw [venn2Loop_inter L H i j is js Hs h0, venn2Trace_inter i j is js h0,
                  List.filter_cons, List.filter_cons, List.filter_cons]
                have hI := ih (is.length + js.length) (by omega) is js
                  { Hs with Inter := histInc L H (min i.count j.count) Hs.Inter } rfl
                refine ⟨?_, ?_, ?_⟩
                · rw [hI.1]; rfl
                · rw [hI.2.1]; rfl
                · rw [hI.2.2]; rfl
              · by_cases h1 : mycmp i.key j.key < 0
                · rw [venn2Loop_lt L H i j is js Hs h0 h1, venn2Trace_lt i j is js h0 h1,
                    List.filter_cons, List.filter_cons, List.filter_cons]
                  have hI := ih (is.length + (j :: js).length)
                    (by simp only [List.length_cons]; omega) is (j :: js)
                    { Hs with AminB := histInc L H i.count Hs.AminB } rfl
                  refine ⟨?_, ?_, ?_⟩
                  · rw [hI.1]; rfl
                  · rw [hI.2.1]; rfl
                  · rw [hI.2.2]; rfl
                · rw [venn2Loop_gt L H i j is js Hs h0 h1, venn2Trace_gt i j is js h0 h1,
                    List.filter_cons, List.filter_cons, List.filter_cons]
                  have hI := ih ((i :: is).length + js.length)
                    (by simp only [List.length_cons]; omega) (i :: is) js
                    { Hs with BminA := histInc L H j.count Hs.BminA } rfl
                  refine ⟨?_, ?_, ?_⟩
                  · rw [hI.1]; rfl
                  · rw [hI.2.1]; rfl
                  · rw [hI.2.2]; rfl

lemma histInc_points (LOW HIGH c : Nat) (h : Nat → Nat) :
    ∀ b, histInc LOW HIGH c h b = if b = binOf LOW HIGH c then h b + 1 else h b := by
  intro b
  unfold histInc binOf
  by_cases h1 : c ≤ LOW
  · simp only [if_pos h1]
    by_cases hb : b = LOW <;> simp [hb]
  · simp only [if_neg h1]
    by_cases h2 : HIGH ≤ c
    · simp only [if_pos h2]
      by_cases hb : b = HIGH <;> simp [hb]
    · simp only [if_neg h2]
      by_cases hb : b = c <;> simp [hb]

/-- C3.  For a key `k` present in both streams with counts `c1` and `c2`,
the 2-way merge routes exactly one event for `k`, and that event goes to the
intersection histogram with contributed count `min c1 c2` — never the
maximum or the sum — consuming the key from both cursors (no separate
A-only or B-only event for `k` exists).  The intersection histogram is
exactly the fold of the update block over the intersection-routed events, and
the update for this event increments precisely the bin
`binOf LOW HIGH (min c1 c2)`, the clamp of `min c1 c2` to `[LOW, HIGH]`. -/
theorem venn2_intersection_min (kbyte LOW HIGH : Nat) (A B : List Entry)
    (k : List Nat) (c1 c2 : Nat)
    (hlA : ∀ e ∈ A, e.key.length = kbyte) (hlB : ∀ e ∈ B, e.key.length = kbyte)
    (hsA : List.Pairwise (fun e f : Entry => mycmp e.key f.key < 0) A)
    (hsB : List.Pairwise (fun e f : Entry => mycmp e.key f.key < 0) B)
    (hA : Entry.mk k c1 ∈ A) (hB : Entry.mk k c2 ∈ B) :
    (venn2Trace A B).filter (fun ev => ev.key == k) =
      [⟨Dest.Inter, k, min c1 c2⟩] ∧
    (∀ Hs : Hists, (venn2Loop LOW HIGH A B Hs).Inter =
       ((venn2Trace A B).filter (fun ev => ev.dest == Dest.Inter)).foldl
         (fun hh ev => histInc LOW HIGH ev.cnt hh) Hs.Inter) ∧
    (∀ h : Nat → Nat, ∀ b, histInc LOW HIGH (min c1 c2) h b =
       if b = binOf LOW HIGH (min c1 c2) then h b + 1 else h b) :=
  ⟨venn2_common_filter kbyte (A.length + B.length) A B rfl hlA hlB hsA hsB k c1 c2 hA hB,
   fun Hs => (venn2Loop_eq_fold LOW HIGH (A.length + B.length) A B Hs rfl).2.2,
   fun h => histInc_points LOW HIGH (min c1 c2) h⟩

/-- Witness for C3: singleton streams sharing the key `[1]` with counts 3
and 7. -/
theorem venn2_intersection_min_witness :
    ((∀ e ∈ [(⟨[1], 3⟩ : Entry)], e.key.length = 1) ∧
     (∀ e ∈ [(⟨[1], 7⟩ : Entry)], e.key.length = 1) ∧
     List.Pairwise (fun e f : Entry => mycmp e.key f.key < 0) [(⟨[1], 3⟩ : Entry)] ∧
     List.Pairwise (fun e f : Entry => mycmp e.key f.key < 0) [(⟨[1], 7⟩ : Entry)] ∧
     Entry.mk [1] 3 ∈ [(⟨[1], 3⟩ : Entry)] ∧ Entry.mk [1] 7 ∈ [(⟨[1], 7⟩ : Entry)]) ∧
    ((venn2Trace [⟨[1], 3⟩] [⟨[1], 7⟩]).filter (fun ev => ev.key == [1]) =
       [⟨Dest.Inter, [1], min 3 7⟩] ∧
     (∀ Hs : Hists, (venn2Loop 1 100 [⟨[1], 3⟩] [⟨[1], 7⟩] Hs).Inter =
        ((venn2Trace [⟨[1], 3⟩] [⟨[1], 7⟩]).filter (fun ev => ev.dest == Dest.Inter)).foldl
          (fun hh ev => histInc 1 100 ev.cnt hh) Hs.Inter) ∧
     (∀ h : Nat → Nat, ∀ b, histInc 1 100 (min 3 7) h b =
        if b = binOf 1 100 (min 3 7) then h b + 1 else h b)) :=
  ⟨⟨by decide, by decide, by decide, by decide, by decide, by decide⟩,
   venn2_intersection_min 1 1 100 [⟨[1], 3⟩] [⟨[1], 7⟩] [1] 3 7
     (by decide) (by decide) (by decide) (by decide) (by decide) (by decide)⟩

/-! ## Index bookkeeping for the N-way merge -/

lemma totalLen_cons (s : List Entry) (strs : List (List Entry)) :
    totalLen (s :: strs) = s.length + totalLen strs := by
  simp [totalLen]

lemma totalLen_eq_zero (strs : List (List Entry)) :
    totalLen strs = 0 ↔ ∀ s ∈ strs, s = [] := by
  induction strs with
  | nil => simp [totalLen]
  | cons s rest ih =>
      rw [totalLen_cons]
      simp only [List.mem_cons]
      constructor
      · intro h
        have h1 : s.length = 0 := by omega
        have h2 : totalLen rest = 0 := by omega
        intro t ht
        rcases ht with rfl | ht
        · exact List.length_eq_zero.mp h1
        · exact ih.mp h2 t ht
      · intro h
        have h1 : s = [] := h s (Or.inl rfl)
        have h2 : totalLen rest = 0 := ih.mpr (fun t ht => h t (Or.inr ht))
        simp [h1, h2]

lemma getD_len_le (strs : List (List Entry)) : ∀ j, strs.length ≤ j →
    strs.getD j [] = [] := by
  induction strs with
  | nil => intro j _; simp
  | cons s rest ih =>
      intro j hj
      cases j with
      | zero => simp at hj
      | succ j =>
          simp only [List.getD_cons_succ]
          exact ih j (by simpa using hj)

lemma lt_len_of_getD_ne_nil (strs : List (List Entry)) (j : Nat)
    (h : strs.getD j [] ≠ []) : j < strs.length := by
  by_contra hc
  exact h (getD_len_le strs j (by omega))

lemma getD_lt_mem (strs : List (List Entry)) : ∀ j, j < strs.length →
    strs.getD j [] ∈ strs := by
  induction strs with
  | nil => intro j hj; simp at hj
  | cons s rest ih =>
      intro j hj
      cases j with
      | zero => simp
      | succ j =>
          simp only [List.getD_cons_succ]
          exact List.mem_cons_of_mem _ (ih j (by simpa using hj))

lemma mem_exists_getD (strs : List (List Entry)) (s : List Entry) (h : s ∈ strs) :
    ∃ j, j < strs.length ∧ strs.getD j [] = s := by
  induction strs with
  | nil => simp at h
  | cons t rest ih =>
      rcases List.mem_cons.mp h with rfl | h
      · exact ⟨0, by simp, by simp⟩
      · obtain ⟨j, hj, hg⟩ := ih h
        exact ⟨j + 1, by simpa using Nat.succ_lt_succ hj, by simpa using hg⟩

lemma drop_eq_cons_getD (strs : List (List Entry)) : ∀ i (s : List Entry) r,
    strs.drop i = s :: r → strs.getD i [] = s ∧ strs.drop (i + 1) = r := by
  induction strs with
  | nil => intro i s r h; simp at h
  | cons t ts ih =>
      intro i s r h
      cases i with
      | zero =>
          rw [List.drop_zero] at h
          injection h with h1 h2
          subst h1; subst h2
          exact ⟨by simp, by simp⟩
      | succ i =>
          rw [List.drop_succ_cons] at h
          obtain ⟨h1, h2⟩ := ih i s r h
          exact ⟨by simpa using h1, by simpa using h2⟩

lemma drop_nil_len (strs : List (List Entry)) : ∀ i, strs.drop i = [] →
    strs.length ≤ i := by
  induction strs with
  | nil => intro i _; simp
  | cons t ts ih =>
      intro i h
      cases i with
      | zero => simp at h
      | succ i =>
          rw [List.drop_succ_cons] at h
          have := ih i h
          simpa using Nat.succ_le_succ this

lemma firstNonempty_none (strs : List (List Entry)) :
    firstNonempty strs = none ↔ ∀ s ∈ strs, s = [] := by
  induction strs with
  | nil => simp [firstNonempty]
  | cons s rest ih =>
      cases s with
      | nil =>
          simp only [firstNonempty, Option.map_eq_none']
          rw [ih]
          simp
      | cons e es => simp [firstNonempty]

lemma firstNonempty_some (strs : List (List Entry)) : ∀ c,
    firstNonempty strs = some c →
    c < strs.length ∧ strs.getD c [] ≠ [] ∧ ∀ j, j < c → strs.getD j [] = [] := by
  induction strs with
  | nil => intro c h; simp [firstNonempty] at h
  | cons s rest ih =>
      intro c h
      cases s with
      | nil =>
          simp only [firstNonempty] at h
          cases hr : firstNonempty rest with
          | none => rw [hr] at h; simp at h
          | some c' =>
              rw [hr] at h
              simp only [Option.map_some', Option.some.injEq] at h
              obtain ⟨h1, h2, h3⟩ := ih c' hr
              subst h
              refine ⟨by simpa using Nat.succ_lt_succ h1, by simpa using h2, ?_⟩
              intro j hj
              cases j with
              | zero => simp
              | succ j =>
                  simp only [List.getD_cons_succ]
                  exact h3 j (by omega)
      | cons e es =>
          simp only [firstNonempty, Option.some.injEq] at h
          subst h
          refine ⟨by simp, by simp, ?_⟩
          intro j hj
          exact absurd hj (Nat.not_lt_zero j)

lemma advanceAll_getD (strs : List (List Entry)) : ∀ i ins j,
    (advanceAll strs i ins).getD j [] =
      if (i + j) ∈ ins then (strs.getD j []).tail else strs.getD j [] := by
  induction strs with
  | nil =>
      intro i ins j
      show ([] : List (List Entry)).getD j [] = _
      by_cases h : (i + j) ∈ ins <;> simp [h]
  | cons s rest ih =>
      intro i ins j
      cases j with
      | zero =>
          show ((if i ∈ ins then s.tail else s) :: advanceAll rest (i + 1) ins).getD 0 []
            = _
          simp
      | succ j =>
          show ((if i ∈ ins then s.tail else s) :: advanceAll rest (i + 1) ins).getD (j + 1) []
            = _
          simp only [List.getD_cons_succ]
          rw [ih (i + 1) ins j]
          have harith : i + 1 + j = i + (j + 1) := by omega
          rw [harith]

lemma advanceAll_totalLen_le (strs : List (List Entry)) : ∀ i ins,
    totalLen (advanceAll strs i ins) ≤ totalLen strs := by
  induction strs with
  | nil => intro i ins; exact le_refl _
  | cons s rest ih =>
      intro i ins
      show totalLen ((if i ∈ ins then s.tail else s) :: advanceAll rest (i + 1) ins) ≤ _
      rw [totalLen_cons, totalLen_cons]
      have h1 : (if i ∈ ins then s.tail else s).length ≤ s.length := by
        split
        · cases s <;> simp
        · exact le_refl _
      have h2 := ih (i + 1) ins
      omega

lemma advanceAll_totalLen_lt (strs : List (List Entry)) : ∀ i ins j,
    (i + j) ∈ ins → strs.getD j [] ≠ [] →
    totalLen (advanceAll strs i ins) < totalLen strs := by
  induction strs with
  | nil =>
      intro i ins j _ hne
      exact absurd (by simp) hne
  | cons s rest ih =>
      intro i ins j hm hne
      show totalLen ((if i ∈ ins then s.tail else s) :: advanceAll rest (i + 1) ins) < _
      rw [totalLen_cons, totalLen_cons]
      cases j with
      | zero =>
          have hi : i ∈ ins := by simpa using hm
          have hs : s ≠ [] := by simpa using hne
          have h1 : (if i ∈ ins then s.tail else s).length < s.length := by
            rw [if_pos hi]
            cases s with
            | nil => exact absurd rfl hs
            | cons e es => simp
          have h2 := advanceAll_totalLen_le rest (i + 1) ins
          omega
      | succ j =>
          have hm' : (i + 1) + j ∈ ins := by
            have : i + 1 + j = i + (j + 1) := by omega
            rw [this]; exact hm
          have hne' : rest.getD j [] ≠ [] := by simpa using hne
          have h1 : (if i ∈ ins then s.tail else s).length ≤ s.length := by
            split
            · cases s <;> simp
            · exact le_refl _
          have h2 := ih (i + 1) ins j hm' hne'
          omega

lemma advanceAll_mem (strs : List (List Entry)) : ∀ i ins s',
    s' ∈ advanceAll strs i ins → ∃ s ∈ strs, s' = s.tail ∨ s' = s := by
  induction strs with
  | nil => intro i ins s' h; simp [advanceAll] at h
  | cons s rest ih =>
      intro i ins s' h
      rcases List.mem_cons.mp h with h | h
      · refine ⟨s, List.mem_cons_self _ _, ?_⟩
        rw [h]
        split
        · exact Or.inl rfl
        · exact Or.inr rfl
      · obtain ⟨t, ht, hor⟩ := ih (i + 1) ins s' h
        exact ⟨t, List.mem_cons_of_mem _ ht, hor⟩

lemma advanceAll_keylen (kbyte : Nat) (strs : List (List Entry))
    (hlen : ∀ s ∈ strs, ∀ e ∈ s, e.key.length = kbyte) (i : Nat) (ins : List Nat) :
    ∀ s' ∈ advanceAll strs i ins, ∀ e ∈ s', e.key.length = kbyte := by
  intro s' hs' e he
  obtain ⟨s, hs, hor⟩ := advanceAll_mem strs i ins s' hs'
  rcases hor with h1 | h1
  · rw [h1] at he
    exact hlen s hs e (List.mem_of_mem_tail he)
  · rw [h1] at he
    exact hlen s hs e he

lemma advanceAll_sorted (strs : List (List Entry))
    (hsort : ∀ s ∈ strs, List.Pairwise (fun e f : Entry => mycmp e.key f.key < 0) s)
    (i : Nat) (ins : List Nat) :
    ∀ s' ∈ advanceAll strs i ins,
      List.Pairwise (fun e f : Entry => mycmp e.key f.key < 0) s' := by
  intro s' hs'
  obtain ⟨s, hs, hor⟩ := advanceAll_mem strs i ins s' hs'
  rcases hor with h1 | h1
  · rw [h1]
    exact (hsort s hs).tail
  · rw [h1]
    exact hsort s hs

/-! ## Stepping the N-way merge -/

lemma vennScanAux_nil (i imin : Nat) (kmin : List Nat) (ins : List Nat) :
    vennScanAux [] i imin kmin ins = (imin, kmin, ins) := rfl

lemma vennScanAux_nil_cons (rest : List (List Entry)) (i imin : Nat) (kmin : List Nat)
    (ins : List Nat) :
    vennScanAux ([] :: rest) i imin kmin ins = vennScanAux rest (i + 1) imin kmin ins := rfl

lemma vennScanAux_cons_cons (e : Entry) (es : List Entry) (rest : List (List Entry))
    (i imin : Nat) (kmin : List Nat) (ins : List Nat) :
    vennScanAux ((e :: es) :: rest) i imin kmin ins =
      (if mycmp e.key kmin = 0 then vennScanAux rest (i + 1) imin kmin (ins ++ [i])
       else if mycmp e.key kmin < 0 then vennScanAux rest (i + 1) i e.key [i]
       else vennScanAux rest (i + 1) imin kmin ins) := rfl

lemma vennScanAux_live (strs : List (List Entry)) : ∀ (rest : List (List Entry))
    (i imin : Nat) (kmin : List Nat) (ins : List Nat),
    strs.drop i = rest →
    imin ∈ ins →
    (∃ e, (strs.getD imin []).head? = some e ∧ e.key = kmin) →
    ((vennScanAux rest i imin kmin ins).1 ∈ (vennScanAux rest i imin kmin ins).2.2 ∧
     ∃ e, (strs.getD (vennScanAux rest i imin kmin ins).1 []).head? = some e ∧
       e.key = (vennScanAux rest i imin kmin ins).2.1) := by
  intro rest
  induction rest generalizing strs with
  | nil => intro i imin kmin ins _ hmem hreal; exact ⟨hmem, hreal⟩
  | cons s rest ih =>
      intro i imin kmin ins hdrop hmem hreal
      obtain ⟨hget, hdrop'⟩ := drop_eq_cons_getD strs i s rest hdrop
      cases s with
      | nil =>
          rw [vennScanAux_nil_cons]
          exact ih strs (i + 1) imin kmin ins hdrop' hmem hreal
      | cons e es =>
          rw [vennScanAux_cons_cons]
          by_cases h0 : mycmp e.key kmin = 0
          · rw [if_pos h0]
            exact ih strs (i + 1) imin kmin (ins ++ [i]) hdrop'
              (List.mem_append_left _ hmem) hreal
          · rw [if_neg h0]
            by_cases h1 : mycmp e.key kmin < 0
            · rw [if_pos h1]
              refine ih strs (i + 1) i e.key [i] hdrop' (List.mem_singleton_self i) ?_
              refine ⟨e, ?_, rfl⟩
              rw [hget]
              rfl
            · rw [if_neg h1]
              exact ih strs (i + 1) imin kmin ins hdrop' hmem hreal

lemma vennStep_of_fn_none (strs : List (List Entry))
    (hf : firstNonempty strs = none) : vennStep strs = none := by
  unfold vennStep
  rw [hf]

lemma vennStep_eq_of (strs : List (List Entry)) (c : Nat) (e : Entry)
    (hf : firstNonempty strs = some c) (hh : (strs.getD c []).head? = some e) :
    vennStep strs =
      some (⟨(vennScanAux (strs.drop (c + 1)) (c + 1) c e.key [c]).2.1,
             (vennScanAux (strs.drop (c + 1)) (c + 1) c e.key [c]).2.2,
             maskOf (vennScanAux (strs.drop (c + 1)) (c + 1) c e.key [c]).2.2⟩,
            advanceAll strs 0 (vennScanAux (strs.drop (c + 1)) (c + 1) c e.key [c]).2.2) := by
  unfold vennStep
  rw [hf]
  show (match (strs.getD c []).head? with
        | none => none
        | some e =>
            let r := vennScanAux (strs.drop (c + 1)) (c + 1) c e.key [c]
            some ((⟨r.2.1, r.2.2, maskOf r.2.2⟩ : VStep), advanceAll strs 0 r.2.2)) = _
  rw [hh]

lemma vennStep_live (strs : List (List Entry)) (t : VStep) (strs' : List (List Entry))
    (h : vennStep strs = some (t, strs')) :
    strs' = advanceAll strs 0 t.ins ∧ t.mask = maskOf t.ins ∧
    ∃ j e, j ∈ t.ins ∧ (strs.getD j []).head? = some e ∧ e.key = t.kmin := by
  cases hf : firstNonempty strs with
  | none => rw [vennStep_of_fn_none strs hf] at h; exact absurd h (by simp)
  | some c =>
      obtain ⟨hclen, hcne, _⟩ := firstNonempty_some strs c hf
      obtain ⟨e, hh⟩ : ∃ e, (strs.getD c []).head? = some e := by
        cases hgd : strs.getD c [] with
        | nil => exact absurd hgd hcne
        | cons x xs => exact ⟨x, rfl⟩
      rw [vennStep_eq_of strs c e hf hh] at h
      simp only [Option.some.injEq, Prod.mk.injEq] at h
      obtain ⟨ht, hstrs'⟩ := h
      have hlive := vennScanAux_live strs (strs.drop (c + 1)) (c + 1) c e.key [c] rfl
        (List.mem_singleton_self c) ⟨e, hh, rfl⟩
      refine ⟨hstrs'.symm.trans ?_, ?_, ?_⟩
      · rw [← ht]
      · rw [← ht]
      · rw [← ht]
        exact ⟨_, hlive.2.choose, hlive.1, hlive.2.choose_spec.1, hlive.2.choose_spec.2⟩

lemma vennStep_decrease (strs : List (List Entry)) (t : VStep) (strs' : List (List Entry))
    (h : vennStep strs = some (t, strs')) :
    totalLen strs' < totalLen strs := by
  obtain ⟨hstrs', _, j, e, hj, hhead, _⟩ := vennStep_live strs t strs' h
  have hne : strs.getD j [] ≠ [] := by
    intro hnil
    rw [hnil] at hhead
    simp at hhead
  rw [hstrs']
  exact advanceAll_totalLen_lt strs 0 t.ins j (by simpa using hj) hne

lemma vennStep_none_iff (strs : List (List Entry)) :
    vennStep strs = none ↔ ∀ s ∈ strs, s = [] := by
  constructor
  · intro h
    cases hf : firstNonempty strs with
    | none => exact (firstNonempty_none strs).mp hf
    | some c =>
        exfalso
        obtain ⟨_, hcne, _⟩ := firstNonempty_some strs c hf
        obtain ⟨e, hh⟩ : ∃ e, (strs.getD c []).head? = some e := by
          cases hgd : strs.getD c [] with
          | nil => exact absurd hgd hcne
          | cons x xs => exact ⟨x, rfl⟩
        rw [vennStep_eq_of strs c e hf hh] at h
        exact absurd h (by simp)
  · intro h
    exact vennStep_of_fn_none strs ((firstNonempty_none strs).mpr h)

lemma vennRunAux_fuel_eq : ∀ (f g : Nat) (strs : List (List Entry)),
    totalLen strs ≤ f → totalLen strs ≤ g → vennRunAux f strs = vennRunAux g strs := by
  intro f
  induction f with
  | zero =>
      intro g strs hf _
      have h0 : totalLen strs = 0 := by omega
      have hnone : vennStep strs = none :=
        (vennStep_none_iff strs).mpr ((totalLen_eq_zero strs).mp h0)
      cases g with
      | zero => rfl
      | succ g => simp [vennRunAux, hnone]
  | succ f ih =>
      intro g strs hf hg
      cases hs : vennStep strs with
      | none =>
          cases g with
          | zero => simp [vennRunAux, hs]
          | succ g => simp [vennRunAux, hs]
      | some p =>
          obtain ⟨t, strs'⟩ := p
          have hdec := vennStep_decrease strs t strs' hs
          cases g with
          | zero => omega
          | succ g =>
              show vennRunAux (f + 1) strs = vennRunAux (g + 1) strs
              simp only [vennRunAux, hs]
              exact congrArg _ (ih g strs' (by omega) (by omega))

lemma vennRun_cons (strs : List (List Entry)) (t : VStep) (strs' : List (List Entry))
    (h : vennStep strs = some (t, strs')) :
    vennRun strs = t :: vennRun strs' := by
  have hdec := vennStep_decrease strs t strs' h
  show vennRunAux (totalLen strs) strs = _
  have h1 : totalLen strs = (totalLen strs - 1) + 1 := by omega
  calc vennRunAux (totalLen strs) strs
      = vennRunAux ((totalLen strs - 1) + 1) strs := by rw [← h1]
    _ = t :: vennRunAux (totalLen strs - 1) strs' := by simp only [vennRunAux, h]
    _ = t :: vennRunAux (totalLen strs') strs' :=
        congrArg _ (vennRunAux_fuel_eq _ _ strs' (by omega) (le_refl _))

lemma vennRun_nil (strs : List (List Entry)) (h : vennStep strs = none) :
    vennRun strs = [] := by
  show vennRunAux (totalLen strs) strs = _
  cases htl : totalLen strs with
  | zero => rfl
  | succ n => simp [vennRunAux, h]

/-! ## The memory frame of the N-way merge (C10) -/

lemma vennExec_fold (ms : List Nat) : ∀ st : VennMem,
    ((ms.foldl (fun s v => vennExecStep v s) st).mem = st.mem ∧
     ∀ j, (ms.foldl (fun s v => vennExecStep v s) st).comb j =
       st.comb j + (ms.countP (fun v => v - 1 == j) : Int)) := by
  induction ms with
  | nil => intro st; exact ⟨rfl, fun j => by simp⟩
  | cons v ms ih =>
      intro st
      constructor
      · show (ms.foldl _ (vennExecStep v st)).mem = st.mem
        rw [(ih (vennExecStep v st)).1]
        rfl
      · intro j
        show (ms.foldl _ (vennExecStep v st)).comb j = _
        rw [(ih (vennExecStep v st)).2 j]
        show (if j = v - 1 then st.comb j + 1 else st.comb j) + _ = _
        rw [List.countP_cons]
        by_cases hj : j = v - 1
        · have hb : (v - 1 == j) = true := by simp [hj]
          rw [if_pos hj, hb, if_pos rfl]
          push_cast
          ring
        · have hb : ¬ ((v - 1 == j) = true) := by simp [Ne.symm hj]
          rw [if_neg hj, if_neg hb]
          push_cast
          ring

/-! ## The tied-set characterization of one N-way step -/

lemma head_keylen (kbyte : Nat) (strs : List (List Entry))
    (hlen : ∀ s ∈ strs, ∀ e ∈ s, e.key.length = kbyte) (j : Nat) (e : Entry)
    (hh : (strs.getD j []).head? = some e) : e.key.length = kbyte := by
  have hne : strs.getD j [] ≠ [] := by
    intro h
    rw [h] at hh
    simp at hh
  have hlt := lt_len_of_getD_ne_nil strs j hne
  have hmem := getD_lt_mem strs j hlt
  have hemem : e ∈ strs.getD j [] := by
    cases hgd : strs.getD j [] with
    | nil => exact absurd hgd hne
    | cons x xs =>
        rw [hgd] at hh
        simp only [List.head?_cons, Option.some.injEq] at hh
        rw [hh]
        exact List.mem_cons_self _ _
  exact hlen _ hmem e hemem

lemma vennScanAux_spec (kbyte : Nat) (strs : List (List Entry))
    (hlen : ∀ s ∈ strs, ∀ e ∈ s, e.key.length = kbyte) :
    ∀ (rest : List (List Entry)) (i imin : Nat) (kmin : List Nat) (ins : List Nat),
    strs.drop i = rest →
    kmin.length = kbyte →
    (∀ j, j ∈ ins ↔ (j < i ∧ ∃ e, (strs.getD j []).head? = some e ∧ e.key = kmin)) →
    (∀ j, j < i → ∀ e, (strs.getD j []).head? = some e → ¬ mycmp e.key kmin < 0) →
    ((vennScanAux rest i imin kmin ins).2.1.length = kbyte ∧
     (∀ j, j ∈ (vennScanAux rest i imin kmin ins).2.2 ↔
        ∃ e, (strs.getD j []).head? = some e ∧
          e.key = (vennScanAux rest i imin kmin ins).2.1) ∧
     (∀ j e, (strs.getD j []).head? = some e →
        ¬ mycmp e.key (vennScanAux rest i imin kmin ins).2.1 < 0)) := by
  intro rest
  induction rest generalizing strs hlen with
  | nil =>
      intro i imin kmin ins hdrop hkb inv1 inv2
      rw [vennScanAux_nil]
      have hle : strs.length ≤ i := drop_nil_len strs i hdrop
      refine ⟨hkb, ?_, ?_⟩
      · intro j
        rw [inv1 j]
        constructor
        · exact fun h => h.2
        · intro h
          refine ⟨?_, h⟩
          obtain ⟨e, he, _⟩ := h
          have hne : strs.getD j [] ≠ [] := by
            intro hx; rw [hx] at he; simp at he
          have := lt_len_of_getD_ne_nil strs j hne
          omega
      · intro j e he
        have hne : strs.getD j [] ≠ [] := by
          intro hx; rw [hx] at he; simp at he
        have := lt_len_of_getD_ne_nil strs j hne
        exact inv2 j (by omega) e he
  | cons s rest ih =>
      intro i imin kmin ins hdrop hkb inv1 inv2
      obtain ⟨hget, hdrop'⟩ := drop_eq_cons_getD strs i s rest hdrop
      cases s with
      | nil =>
          rw [vennScanAux_nil_cons]
          refine ih strs hlen (i + 1) imin kmin ins hdrop' hkb ?_ ?_
          · intro j
            rw [inv1 j]
            constructor
            · intro h; exact ⟨by omega, h.2⟩
            · intro ⟨hj, e, he, hk⟩
              by_cases hji : j = i
              · rw [hji, hget] at he; simp at he
              · exact ⟨by omega, e, he, hk⟩
          · intro j hj e he
            by_cases hji : j = i
            · rw [hji, hget] at he; simp at he
            · exact inv2 j (by omega) e he
      | cons e es =>
          have hhead : (strs.getD i []).head? = some e := by rw [hget]; rfl
          have helen : e.key.length = kbyte := head_keylen kbyte strs hlen i e hhead
          rw [vennScanAux_cons_cons]
          by_cases h0 : mycmp e.key kmin = 0
          · rw [if_pos h0]
            have he : e.key = kmin := mycmp_eq_zero _ _ (helen.trans hkb.symm) h0
            refine ih strs hlen (i + 1) imin kmin (ins ++ [i]) hdrop' hkb ?_ ?_
            · intro j
              rw [List.mem_append, List.mem_singleton, inv1 j]
              constructor
              · intro h
                rcases h with ⟨hj, hrest⟩ | rfl
                · exact ⟨by omega, hrest⟩
                · exact ⟨by omega, e, hhead, he⟩
              · intro ⟨hj, f, hf, hk⟩
                by_cases hji : j = i
                · exact Or.inr hji
                · exact Or.inl ⟨by omega, f, hf, hk⟩
            · intro j hj f hf
              by_cases hji : j = i
              · rw [hji, hhead] at hf
                injection hf with hf
                rw [← hf]
                omega
              · exact inv2 j (by omega) f hf
          · rw [if_neg h0]
            by_cases h1 : mycmp e.key kmin < 0
            · rw [if_pos h1]
              refine ih strs hlen (i + 1) i e.key [i] hdrop' helen ?_ ?_
              · intro j
                rw [List.mem_singleton]
                constructor
                · intro hji
                  exact ⟨by omega, e, hji ▸ hhead, rfl⟩
                · intro ⟨hj, f, hf, hk⟩
                  by_cases hji : j = i
                  · exact hji
                  · exfalso
                    have := inv2 j (by omega) f hf
                    rw [hk] at this
                    exact this h1
              · intro j hj f hf
                by_cases hji : j = i
                · rw [hji, hhead] at hf
                  injection hf with hf
                  rw [← hf]
                  rw [mycmp_self]
                  omega
                · intro hcon
                  have hfk : f.key.length = kbyte := head_keylen kbyte strs hlen j f hf
                  have := inv2 j (by omega) f hf
                  exact this (mycmp_lt_of_lt_of_lt f.key e.key kmin
                    (hfk.trans helen.symm) (helen.trans hkb.symm) hcon h1)
            · rw [if_neg h1]
              refine ih strs hlen (i + 1) imin kmin ins hdrop' hkb ?_ ?_
              · intro j
                rw [inv1 j]
                constructor
                · intro h; exact ⟨by omega, h.2⟩
                · intro ⟨hj, f, hf, hk⟩
                  by_cases hji : j = i
                  · exfalso
                    rw [hji, hhead] at hf
                    injection hf with hf
                    have hek : e.key = kmin := by rw [hf]; exact hk
                    exact h0 (by rw [hek]; exact mycmp_self kmin)
                  · exact ⟨by omega, f, hf, hk⟩
              · intro j hj f hf
                by_cases hji : j = i
                · rw [hji, hhead] at hf
                  injection hf with hf
                  rw [← hf]
                  omega
                · exact inv2 j (by omega) f hf

lemma vennStep_some_spec (kbyte : Nat) (strs : List (List Entry))
    (hlen : ∀ s ∈ strs, ∀ e ∈ s, e.key.length = kbyte)
    (t : VStep) (strs' : List (List Entry))
    (h : vennStep strs = some (t, strs')) :
    t.kmin.length = kbyte ∧
    (∀ j, j ∈ t.ins ↔ ∃ e, (strs.getD j []).head? = some e ∧ e.key = t.kmin) ∧
    (∀ j e, (strs.getD j []).head? = some e → ¬ mycmp e.key t.kmin < 0) ∧
    strs' = advanceAll strs 0 t.ins ∧ t.mask = maskOf t.ins := by
  cases hf : firstNonempty strs with
  | none => rw [vennStep_of_fn_none strs hf] at h; exact absurd h (by simp)
  | some c =>
      obtain ⟨hclen, hcne, hcpre⟩ := firstNonempty_some strs c hf
      obtain ⟨e, hh⟩ : ∃ e, (strs.getD c []).head? = some e := by
        cases hgd : strs.getD c [] with
        | nil => exact absurd hgd hcne
        | cons x xs => exact ⟨x, rfl⟩
      rw [vennStep_eq_of strs c e hf hh] at h
      simp only [Option.some.injEq, Prod.mk.injEq] at h
      obtain ⟨ht, hstrs'⟩ := h
      have hspec := vennScanAux_spec kbyte strs hlen (strs.drop (c + 1)) (c + 1) c e.key [c]
        rfl (head_keylen kbyte strs hlen c e hh) ?_ ?_
      · refine ⟨?_, ?_, ?_, ?_, ?_⟩
        · rw [← ht]; exact hspec.1
        · rw [← ht]; exact hspec.2.1
        · rw [← ht]; exact hspec.2.2
        · rw [← ht]; exact hstrs'.symm
        · rw [← ht]
      · intro j
        rw [List.mem_singleton]
        constructor
        · intro hji
          exact ⟨by omega, e, hji ▸ hh, rfl⟩
        · intro ⟨hj, f, hf, _⟩
          by_cases hji : j = c
          · exact hji
          · exfalso
            have hnil := hcpre j (by omega)
            rw [hnil] at hf
            simp at hf
      · intro j hj f hf
        by_cases hji : j = c
        · rw [hji, hh] at hf
          injection hf with hf
          rw [← hf]
          rw [mycmp_self]
          omega
        · have hnil := hcpre j (by omega)
          rw [hnil] at hf
          simp at hf

/-! ## Every entry is consumed exactly once (C6) -/

lemma vennRun_consumes (kbyte : Nat) : ∀ (n : Nat) (strs : List (List Entry)),
    totalLen strs = n →
    (∀ s ∈ strs, ∀ e ∈ s, e.key.length = kbyte) →
    ∀ j, (strs.getD j []).length =
      ((vennRun strs).countP (fun t => decide (j ∈ t.ins))) := by
  intro n
  induction n using Nat.strong_induction_on with
  | _ n ih =>
      intro strs hn hlen j
      cases hs : vennStep strs with
      | none =>
          rw [vennRun_nil strs hs]
          have hall := (vennStep_none_iff strs).mp hs
          have hnil : strs.getD j [] = [] := by
            by_cases hj : j < strs.length
            · exact hall _ (getD_lt_mem strs j hj)
            · exact getD_len_le strs j (by omega)
          rw [hnil]
          simp
      | some p =>
          obtain ⟨t, strs'⟩ := p
          rw [vennRun_cons strs t strs' hs, List.countP_cons]
          obtain ⟨hkb, hiff, hmin, hadv, hmask⟩ := vennStep_some_spec kbyte strs hlen t strs' hs
          have hlen' : ∀ s ∈ strs', ∀ e ∈ s, e.key.length = kbyte := by
            rw [hadv]; exact advanceAll_keylen kbyte strs hlen 0 t.ins
          have hdec := vennStep_decrease strs t strs' hs
          have hIH := ih (totalLen strs') (by omega) strs' rfl hlen' j
          have hget' : strs'.getD j [] =
              if (0 + j) ∈ t.ins then (strs.getD j []).tail else strs.getD j [] := by
            rw [hadv]; exact advanceAll_getD strs 0 t.ins j
          by_cases hj : j ∈ t.ins
          · have hd : (decide (j ∈ t.ins)) = true := by simp [hj]
            rw [hd, if_pos rfl]
            obtain ⟨e, he, _⟩ := (hiff j).mp hj
            cases hgd : strs.getD j [] with
            | nil => rw [hgd] at he; simp at he
            | cons x xs =>
                rw [if_pos (by simpa using hj), hgd] at hget'
                rw [hget'] at hIH
                simp only [List.tail_cons] at hIH
                simp only [List.length_cons]
                omega
          · have hd : ¬ ((decide (j ∈ t.ins)) = true) := by simp [hj]
            rw [if_neg hd]
            rw [if_neg (by simpa using hj)] at hget'
            rw [hget'] at hIH
            omega

/-- C6.  Both merge engines consume every entry of every stream exactly
once and stop exactly at exhaustion.  For the 2-way engine: each entry of
stream A is matched by exactly one AminB- or Inter-routed event and each
entry of B by exactly one BminA- or Inter-routed event, and once a stream is
exhausted the remainder of the other is consumed by the drain loop alone
(the two map equations).  For the N-way engine (whose termination is
witnessed by the strictly-decreasing `totalLen` of `vennStep_decrease`): the
pass ends — `vennStep` returns `none` — exactly when every stream is
exhausted, stream `j` is advanced in exactly `(strs.getD j []).length`
iterations (one per entry), and in each iteration the advanced set `ins` is
exactly the set of streams whose current entry's key equals the step's
global minimum key `kmin` (no stream with a strictly smaller current key
exists). -/
theorem merge_visits_every_entry_once (kbyte : Nat) (strs : List (List Entry))
    (A B : List Entry)
    (hlen : ∀ s ∈ strs, ∀ e ∈ s, e.key.length = kbyte) :
    ((venn2Trace A B).countP (fun ev => ev.dest == Dest.AminB) +
       (venn2Trace A B).countP (fun ev => ev.dest == Dest.Inter) = A.length) ∧
    ((venn2Trace A B).countP (fun ev => ev.dest == Dest.BminA) +
       (venn2Trace A B).countP (fun ev => ev.dest == Dest.Inter) = B.length) ∧
    (venn2Trace A [] = A.map (fun e => ⟨Dest.AminB, e.key, e.count⟩)) ∧
    (venn2Trace [] B = B.map (fun e => ⟨Dest.BminA, e.key, e.count⟩)) ∧
    (vennStep strs = none ↔ ∀ s ∈ strs, s = []) ∧
    (∀ j, (strs.getD j []).length =
       ((vennRun strs).countP (fun t => decide (j ∈ t.ins)))) ∧
    (∀ t strs', vennStep strs = some (t, strs') →
       (∀ j, j ∈ t.ins ↔ ∃ e, (strs.getD j []).head? = some e ∧ e.key = t.kmin) ∧
       (∀ j e, (strs.getD j []).head? = some e → ¬ mycmp e.key t.kmin < 0)) := by
  refine ⟨(venn2_counts (A.length + B.length) A B rfl).1,
    (venn2_counts (A.length + B.length) A B rfl).2, ?_, venn2Trace_nil_left B,
    vennStep_none_iff strs,
    vennRun_consumes kbyte (totalLen strs) strs rfl hlen, ?_⟩
  · cases A with
    | nil => rfl
    | cons i is => exact venn2Trace_cons_nil i is
  · intro t strs' hs
    obtain ⟨_, hiff, hmin, _, _⟩ := vennStep_some_spec kbyte strs hlen t strs' hs
    exact ⟨hiff, hmin⟩

/-- Witness for C6 on three concrete streams and a concrete 2-way pair. -/
theorem merge_visits_every_entry_once_witness :
    (∀ s ∈ [[(⟨[1], 1⟩ : Entry)], [⟨[2], 2⟩], [⟨[1], 3⟩]], ∀ e ∈ s, e.key.length = 1) ∧
    (((venn2Trace [⟨[1], 5⟩, ⟨[2], 3⟩] [⟨[2], 7⟩]).countP
        (fun ev => ev.dest == Dest.AminB) +
      (venn2Trace [⟨[1], 5⟩, ⟨[2], 3⟩] [⟨[2], 7⟩]).countP
        (fun ev => ev.dest == Dest.Inter) =
        ([(⟨[1], 5⟩ : Entry), ⟨[2], 3⟩]).length) ∧
     ((venn2Trace [⟨[1], 5⟩, ⟨[2], 3⟩] [⟨[2], 7⟩]).countP
        (fun ev => ev.dest == Dest.BminA) +
      (venn2Trace [⟨[1], 5⟩, ⟨[2], 3⟩] [⟨[2], 7⟩]).countP
        (fun ev => ev.dest == Dest.Inter) = ([(⟨[2], 7⟩ : Entry)]).length) ∧
     (venn2Trace [(⟨[1], 5⟩ : Entry), ⟨[2], 3⟩] [] =
        [(⟨[1], 5⟩ : Entry), ⟨[2], 3⟩].map (fun e => ⟨Dest.AminB, e.key, e.count⟩)) ∧
     (venn2Trace [] [(⟨[2], 7⟩ : Entry)] =
        [(⟨[2], 7⟩ : Entry)].map (fun e => ⟨Dest.BminA, e.key, e.count⟩)) ∧
     (vennStep [[(⟨[1], 1⟩ : Entry)], [⟨[2], 2⟩], [⟨[1], 3⟩]] = none ↔
        ∀ s ∈ [[(⟨[1], 1⟩ : Entry)], [⟨[2], 2⟩], [⟨[1], 3⟩]], s = []) ∧
     (∀ j, (([[(⟨[1], 1⟩ : Entry)], [⟨[2], 2⟩], [⟨[1], 3⟩]]).getD j []).length =
        ((vennRun [[(⟨[1], 1⟩ : Entry)], [⟨[2], 2⟩], [⟨[1], 3⟩]]).countP
          (fun t => decide (j ∈ t.ins)))) ∧
     (∀ t strs', vennStep [[(⟨[1], 1⟩ : Entry)], [⟨[2], 2⟩], [⟨[1], 3⟩]] =
          some (t, strs') →
        (∀ j, j ∈ t.ins ↔
           ∃ e, (([[(⟨[1], 1⟩ : Entry)], [⟨[2], 2⟩], [⟨[1], 3⟩]]).getD j []).head? =
             some e ∧ e.key = t.kmin) ∧
        (∀ j e, (([[(⟨[1], 1⟩ : Entry)], [⟨[2], 2⟩], [⟨[1], 3⟩]]).getD j []).head? =
             some e → ¬ mycmp e.key t.kmin < 0))) :=
  ⟨by decide,
   merge_visits_every_entry_once 1 [[⟨[1], 1⟩], [⟨[2], 2⟩], [⟨[1], 3⟩]]
     [⟨[1], 5⟩, ⟨[2], 3⟩] [⟨[2], 7⟩] (by decide)⟩

/-! ## N-way completeness (C1) -/

lemma advanceAll_length (strs : List (List Entry)) : ∀ i ins,
    (advanceAll strs i ins).length = strs.length := by
  induction strs with
  | nil => intro i ins; rfl
  | cons s rest ih =>
      intro i ins
      show ((if i ∈ ins then s.tail else s) :: advanceAll rest (i + 1) ins).length = _
      simp [ih (i + 1) ins]

lemma mem_unionKeys (strs : List (List Entry)) (k : List Nat) :
    k ∈ unionKeys strs ↔ ∃ j, ∃ e ∈ strs.getD j [], e.key = k := by
  unfold unionKeys
  rw [List.mem_flatten]
  constructor
  · intro ⟨l, hl, hkl⟩
    obtain ⟨s, hs, rfl⟩ := List.mem_map.mp hl
    obtain ⟨e, he, hek⟩ := List.mem_map.mp hkl
    obtain ⟨j, _, hgd⟩ := mem_exists_getD strs s hs
    exact ⟨j, e, by rw [hgd]; exact he, hek⟩
  · intro ⟨j, e, he, hek⟩
    have hne : strs.getD j [] ≠ [] := by
      intro h; rw [h] at he; simp at he
    have hlt := lt_len_of_getD_ne_nil strs j hne
    refine ⟨(strs.getD j []).map Entry.key,
      List.mem_map_of_mem _ (getD_lt_mem strs j hlt), ?_⟩
    exact hek ▸ List.mem_map_of_mem _ he

lemma vennStep_union (kbyte : Nat) (strs : List (List Entry))
    (hlen : ∀ s ∈ strs, ∀ e ∈ s, e.key.length = kbyte)
    (hsort : ∀ s ∈ strs, List.Pairwise (fun e f : Entry => mycmp e.key f.key < 0) s)
    (t : VStep) (strs' : List (List Entry))
    (h : vennStep strs = some (t, strs')) :
    t.kmin ∈ unionKeys strs ∧
    (∀ k, k ∈ unionKeys strs' ↔ (k ∈ unionKeys strs ∧ k ≠ t.kmin)) := by
  obtain ⟨hkb, hiff, hmin, hadv, hmask⟩ := vennStep_some_spec kbyte strs hlen t strs' h
  have hget' : ∀ j, strs'.getD j [] =
      if j ∈ t.ins then (strs.getD j []).tail else strs.getD j [] := by
    intro j
    rw [hadv]
    have := advanceAll_getD strs 0 t.ins j
    simpa using this
  have hmem_head : ∀ j e, (strs.getD j []).head? = some e → e ∈ strs.getD j [] := by
    intro j e he
    cases hgd : strs.getD j [] with
    | nil => rw [hgd] at he; simp at he
    | cons x xs =>
        rw [hgd] at he
        simp only [List.head?_cons, Option.some.injEq] at he
        rw [← he]
        exact List.mem_cons_self _ _
  constructor
  · obtain ⟨_, _, j, e, hj, hh, hke⟩ := vennStep_live strs t strs' h
    exact (mem_unionKeys strs t.kmin).mpr ⟨j, e, hmem_head j e hh, hke⟩
  · intro k
    constructor
    · intro hk
      obtain ⟨j, e, he', hek⟩ := (mem_unionKeys strs' k).mp hk
      rw [hget' j] at he'
      by_cases hj : j ∈ t.ins
      · rw [if_pos hj] at he'
        obtain ⟨f, hf, hfk⟩ := (hiff j).mp hj
        cases hgd : strs.getD j [] with
        | nil => rw [hgd] at he'; simp at he'
        | cons x xs =>
            rw [hgd] at he' hf
            simp only [List.tail_cons] at he'
            simp only [List.head?_cons, Option.some.injEq] at hf
            have hsx : List.Pairwise (fun e f : Entry => mycmp e.key f.key < 0) (x :: xs) := by
              have := hsort _ (getD_lt_mem strs j (lt_len_of_getD_ne_nil strs j
                (by rw [hgd]; simp)))
              rwa [hgd] at this
            have hlt := (List.pairwise_cons.mp hsx).1 e he'
            refine ⟨(mem_unionKeys strs k).mpr
              ⟨j, e, by rw [hgd]; exact List.mem_cons_of_mem _ he', hek⟩, ?_⟩
            intro hkk
            have hxkey : x.key = t.kmin := by rw [hf]; exact hfk
            rw [hxkey, hek, hkk] at hlt
            rw [mycmp_self] at hlt
            omega
      · rw [if_neg hj] at he'
        refine ⟨(mem_unionKeys strs k).mpr ⟨j, e, he', hek⟩, ?_⟩
        intro hkk
        cases hgd : strs.getD j [] with
        | nil => rw [hgd] at he'; simp at he'
        | cons x xs =>
            rw [hgd] at he'
            have hhx : (strs.getD j []).head? = some x := by rw [hgd]; rfl
            rcases List.mem_cons.mp he' with rfl | hexs
            · exact hj ((hiff j).mpr ⟨e, hhx, hek.trans hkk⟩)
            · have hsx : List.Pairwise (fun e f : Entry => mycmp e.key f.key < 0) (x :: xs) := by
                have := hsort _ (getD_lt_mem strs j (lt_len_of_getD_ne_nil strs j
                  (by rw [hgd]; simp)))
                rwa [hgd] at this
              have hlt := (List.pairwise_cons.mp hsx).1 e hexs
              rw [hek, hkk] at hlt
              exact hmin j x hhx hlt
    · intro ⟨hk, hkk⟩
      obtain ⟨j, e, he, hek⟩ := (mem_unionKeys strs k).mp hk
      by_cases hj : j ∈ t.ins
      · obtain ⟨f, hf, hfk⟩ := (hiff j).mp hj
        cases hgd : strs.getD j [] with
        | nil => rw [hgd] at he; simp at he
        | cons x xs =>
            rw [hgd] at he hf
            simp only [List.head?_cons, Option.some.injEq] at hf
            rcases List.mem_cons.mp he with rfl | hexs
            · exfalso
              rw [← hf] at hfk
              exact hkk (hek.symm.trans hfk)
            · refine (mem_unionKeys strs' k).mpr ⟨j, e, ?_, hek⟩
              rw [hget' j, if_pos hj, hgd]
              simpa using hexs
      · refine (mem_unionKeys strs' k).mpr ⟨j, e, ?_, hek⟩
        rw [hget' j, if_neg hj]
        exact he

lemma vennRun_keys (kbyte : Nat) : ∀ (n : Nat) (strs : List (List Entry)),
    totalLen strs = n →
    (∀ s ∈ strs, ∀ e ∈ s, e.key.length = kbyte) →
    (∀ s ∈ strs, List.Pairwise (fun e f : Entry => mycmp e.key f.key < 0) s) →
    ((vennRun strs).map VStep.kmin).Nodup ∧
    (∀ k, k ∈ (vennRun strs).map VStep.kmin ↔ k ∈ unionKeys strs) := by
  intro n
  induction n using Nat.strong_induction_on with
  | _ n ih =>
      intro strs hn hlen hsort
      cases hs : vennStep strs with
      | none =>
          rw [vennRun_nil strs hs]
          have hall := (vennStep_none_iff strs).mp hs
          refine ⟨List.nodup_nil, ?_⟩
          intro k
          simp only [List.map_nil, List.not_mem_nil, false_iff]
          intro hk
          obtain ⟨j, e, he, _⟩ := (mem_unionKeys strs k).mp hk
          have hnil : strs.getD j [] = [] := by
            by_cases hj : j < strs.length
            · exact hall _ (getD_lt_mem strs j hj)
            · exact getD_len_le strs j (by omega)
          rw [hnil] at he
          simp at he
      | some p =>
          obtain ⟨t, strs'⟩ := p
          obtain ⟨hkb, hiff, hmin, hadv, hmask⟩ := vennStep_some_spec kbyte strs hlen t strs' hs
          have hlen' : ∀ s ∈ strs', ∀ e ∈ s, e.key.length = kbyte := by
            rw [hadv]; exact advanceAll_keylen kbyte strs hlen 0 t.ins
          have hsort' : ∀ s ∈ strs',
              List.Pairwise (fun e f : Entry => mycmp e.key f.key < 0) s := by
            rw [hadv]; exact advanceAll_sorted strs hsort 0 t.ins
          have hdec := vennStep_decrease strs t strs' hs
          obtain ⟨hnodup', hiff'⟩ := ih (totalLen strs') (by omega) strs' rfl hlen' hsort'
          obtain ⟨hkmem, hkremove⟩ := vennStep_union kbyte strs hlen hsort t strs' hs
          rw [vennRun_cons strs t strs' hs]
          simp only [List.map_cons]
          constructor
          · rw [List.nodup_cons]
            refine ⟨?_, hnodup'⟩
            intro hmem
            have := ((hkremove t.kmin).mp ((hiff' t.kmin).mp hmem)).2
            exact this rfl
          · intro k
            rw [List.mem_cons, hiff' k, hkremove k]
            constructor
            · intro hor
              rcases hor with rfl | ⟨hk, _⟩
              · exact hkmem
              · exact hk
            · intro hk
              by_cases hkk : k = t.kmin
              · exact Or.inl hkk
              · exact Or.inr ⟨hk, hkk⟩

lemma or_ne_zero_left (a b : Nat) (h : a ≠ 0) : a ||| b ≠ 0 := by
  obtain ⟨i, hi⟩ := Nat.ne_zero_implies_bit_true h
  intro h0
  have ht := Nat.testBit_or a b i
  rw [h0, Nat.zero_testBit, hi] at ht
  simp at ht

lemma foldl_or_ne_zero : ∀ (l : List Nat) (a : Nat), a ≠ 0 →
    l.foldl (fun acc x => acc ||| (1 <<< x)) a ≠ 0 := by
  intro l
  induction l with
  | nil => intro a ha; exact ha
  | cons x l ih =>
      intro a ha
      exact ih (a ||| (1 <<< x)) (or_ne_zero_left a (1 <<< x) ha)

lemma maskOf_pos (ins : List Nat) (h : ins ≠ []) : 1 ≤ maskOf ins := by
  cases ins with
  | nil => exact absurd rfl h
  | cons x l =>
      have h1 : maskOf (x :: l) = l.foldl (fun acc y => acc ||| (1 <<< y)) (0 ||| (1 <<< x)) :=
        rfl
      have h2 : (0 : Nat) ||| (1 <<< x) = 1 <<< x := Nat.zero_or _
      have h3 : (1 : Nat) <<< x ≠ 0 := by
        rw [Nat.shiftLeft_eq, one_mul]
        have := Nat.pow_pos (n := x) (show 0 < 2 by omega)
        omega
      have h4 := foldl_or_ne_zero l ((0 : Nat) ||| (1 <<< x)) (by rw [h2]; exact h3)
      rw [h1] at *
      omega

lemma foldl_or_lt_two_pow (n : Nat) : ∀ (l : List Nat) (a : Nat), a < 2 ^ n →
    (∀ x ∈ l, x < n) → l.foldl (fun acc x => acc ||| (1 <<< x)) a < 2 ^ n := by
  intro l
  induction l with
  | nil => intro a ha _; exact ha
  | cons x l ih =>
      intro a ha hx
      refine ih (a ||| (1 <<< x)) ?_ (fun y hy => hx y (List.mem_cons_of_mem _ hy))
      have h1 : (1 : Nat) <<< x < 2 ^ n := by
        rw [Nat.shiftLeft_eq, one_mul]
        exact Nat.pow_lt_pow_right (by omega) (hx x (List.mem_cons_self _ _))
      exact Nat.or_lt_two_pow ha h1

lemma maskOf_lt_two_pow (ins : List Nat) (n : Nat) (h : ∀ x ∈ ins, x < n) :
    maskOf ins < 2 ^ n :=
  foldl_or_lt_two_pow n ins 0 (Nat.pow_pos (by omega)) h

lemma vennRun_mask_bounds (kbyte : Nat) : ∀ (n : Nat) (strs : List (List Entry)),
    totalLen strs = n →
    (∀ s ∈ strs, ∀ e ∈ s, e.key.length = kbyte) →
    ∀ t ∈ vennRun strs, 1 ≤ t.mask ∧ t.mask < 2 ^ strs.length := by
  intro n
  induction n using Nat.strong_induction_on with
  | _ n ih =>
      intro strs hn hlen t ht
      cases hs : vennStep strs with
      | none => rw [vennRun_nil strs hs] at ht; simp at ht
      | some p =>
          obtain ⟨t0, strs'⟩ := p
          obtain ⟨hkb, hiff, hmin, hadv, hmask⟩ :=
            vennStep_some_spec kbyte strs hlen t0 strs' hs
          have hlen' : ∀ s ∈ strs', ∀ e ∈ s, e.key.length = kbyte := by
            rw [hadv]; exact advanceAll_keylen kbyte strs hlen 0 t0.ins
          have hdec := vennStep_decrease strs t0 strs' hs
          rw [vennRun_cons strs t0 strs' hs] at ht
          rcases List.mem_cons.mp ht with rfl | ht'
          · have hne : t.ins ≠ [] := by
              obtain ⟨_, _, j, e, hj, _, _⟩ := vennStep_live strs t strs' hs
              intro h0
              rw [h0] at hj
              simp at hj
            have hbound : ∀ x ∈ t.ins, x < strs.length := by
              intro x hx
              obtain ⟨e, he, _⟩ := (hiff x).mp hx
              refine lt_len_of_getD_ne_nil strs x ?_
              intro h0
              rw [h0] at he
              simp at he
            rw [hmask]
            exact ⟨maskOf_pos t.ins hne, maskOf_lt_two_pow t.ins strs.length hbound⟩
          · have hlength : strs'.length = strs.length := by
              rw [hadv]; exact advanceAll_length strs 0 t0.ins
            have := ih (totalLen strs') (by omega) strs' rfl hlen' t ht'
            rwa [hlength] at this

lemma sum_count_eq_length (ms : List Nat) (n : Nat)
    (h : ∀ v ∈ ms, v ∈ Finset.Icc 1 n) :
    (Finset.Icc 1 n).sum (fun v => ms.count v) = ms.length := by
  have hsub : ms.toFinset ⊆ Finset.Icc 1 n := fun v hv => h v (List.mem_toFinset.mp hv)
  have key : ms.toFinset.sum (fun v => ms.count v) = ms.length := by
    have := Multiset.toFinset_sum_count_eq (ms : Multiset Nat)
    simpa using this
  rw [← key]
  exact (Finset.sum_subset hsub (fun x _ hx => List.count_eq_zero.mpr
    (fun hmem => hx (List.mem_toFinset.mpr hmem)))).symm

/-- C1.  N-way completeness: over any run with more than two sorted input
streams, each distinct key of the union is handled in exactly one loop
iteration (the trace's minimum keys are pairwise distinct and range over
exactly the union's keys), every iteration's mask lies in `[1, 2^N − 1]`,
and therefore the per-combination counters — one `comb[v-1] += 1` per
iteration, counted here per mask value — sum over all `2^N − 1` subsets to
exactly the number of distinct keys of the union: no distinct key is
double-counted or dropped. -/
theorem venn_nway_counts_distinct_keys (kbyte : Nat) (strs : List (List Entry))
    (hN : 2 < strs.length)
    (hlen : ∀ s ∈ strs, ∀ e ∈ s, e.key.length = kbyte)
    (hsort : ∀ s ∈ strs, List.Pairwise (fun e f : Entry => mycmp e.key f.key < 0) s) :
    (Finset.Icc 1 (2 ^ strs.length - 1)).sum
        (fun v => ((vennRun strs).map VStep.mask).count v)
      = (unionKeys strs).toFinset.card ∧
    ((vennRun strs).map VStep.kmin).Nodup ∧
    (∀ k, k ∈ (vennRun strs).map VStep.kmin ↔ k ∈ unionKeys strs) := by
  obtain ⟨hnodup, hcover⟩ := vennRun_keys kbyte (totalLen strs) strs rfl hlen hsort
  refine ⟨?_, hnodup, hcover⟩
  have hpow : 1 ≤ 2 ^ strs.length := Nat.one_le_two_pow
  have hmem : ∀ v ∈ (vennRun strs).map VStep.mask, v ∈ Finset.Icc 1 (2 ^ strs.length - 1) := by
    intro v hv
    obtain ⟨t, ht, rfl⟩ := List.mem_map.mp hv
    obtain ⟨h1, h2⟩ := vennRun_mask_bounds kbyte (totalLen strs) strs rfl hlen t ht
    rw [Finset.mem_Icc]
    omega
  rw [sum_count_eq_length _ _ hmem]
  have hsetfin : ((vennRun strs).map VStep.kmin).toFinset = (unionKeys strs).toFinset := by
    apply Finset.ext
    intro k
    rw [List.mem_toFinset, List.mem_toFinset]
    exact hcover k
  calc ((vennRun strs).map VStep.mask).length
      = ((vennRun strs).map VStep.kmin).length := by simp
    _ = ((vennRun strs).map VStep.kmin).toFinset.card :=
        (List.toFinset_card_of_nodup hnodup).symm
    _ = (unionKeys strs).toFinset.card := by rw [hsetfin]

/-- Witness for C1 on three concrete streams (keys `[1]`, `[2]` with stream
membership masks 3 and 4). -/
theorem venn_nway_counts_distinct_keys_witness :
    (2 < ([[(⟨[1], 5⟩ : Entry)], [⟨[1], 7⟩], [⟨[2], 3⟩]]).length ∧
     (∀ s ∈ [[(⟨[1], 5⟩ : Entry)], [⟨[1], 7⟩], [⟨[2], 3⟩]], ∀ e ∈ s, e.key.length = 1) ∧
     (∀ s ∈ [[(⟨[1], 5⟩ : Entry)], [⟨[1], 7⟩], [⟨[2], 3⟩]],
        List.Pairwise (fun e f : Entry => mycmp e.key f.key < 0) s)) ∧
    ((Finset.Icc 1 (2 ^ ([[(⟨[1], 5⟩ : Entry)], [⟨[1], 7⟩], [⟨[2], 3⟩]]).length - 1)).sum
        (fun v => ((vennRun [[(⟨[1], 5⟩ : Entry)], [⟨[1], 7⟩], [⟨[2], 3⟩]]).map
          VStep.mask).count v)
       = (unionKeys [[(⟨[1], 5⟩ : Entry)], [⟨[1], 7⟩], [⟨[2], 3⟩]]).toFinset.card ∧
     ((vennRun [[(⟨[1], 5⟩ : Entry)], [⟨[1], 7⟩], [⟨[2], 3⟩]]).map VStep.kmin).Nodup ∧
     (∀ k, k ∈ (vennRun [[(⟨[1], 5⟩ : Entry)], [⟨[1], 7⟩], [⟨[2], 3⟩]]).map VStep.kmin ↔
        k ∈ unionKeys [[(⟨[1], 5⟩ : Entry)], [⟨[1], 7⟩], [⟨[2], 3⟩]])) :=
  ⟨⟨by decide, by decide, by decide⟩,
   venn_nway_counts_distinct_keys 1 [[⟨[1], 5⟩], [⟨[1], 7⟩], [⟨[2], 3⟩]]
     (by decide) (by decide) (by decide)⟩

/-- C10.  The N-way merge writes no histogram counter: its one recording
statement, `comb[v-1] += 1`, only advances the base pointer for mask `v` by
one element per loop iteration (one iteration per distinct key), so after the
merge every `int64` of the histogram block still holds its initial value,
while pointer `comb[j]` has advanced by the number of iterations whose mask
`v` satisfied `v - 1 = j`. -/
theorem venn_touches_only_pointers (strs : List (List Entry)) (st : VennMem) :
    (vennExec strs st).mem = st.mem ∧
    ∀ j, (vennExec strs st).comb j =
      st.comb j + (((vennRun strs).map VStep.mask).countP (fun v => v - 1 == j) : Int) :=
  vennExec_fold ((vennRun strs).map VStep.mask) st

end Vennex
